import Mathlib

/-!
Verification of the maximum-flow engines of the graph repository:
the Ford-Fulkerson engine (`ford_fulkerson.hpp`, DFS path finder) and the
Edmonds-Karp engine (`edmonds_karp.hpp`, BFS path finder).

The embedding models `capacity_t` (a 32-bit signed integer in the source)
as `Int`; the source constants `limits::inf = INT32_MAX / 3` and
`limits::nil = INT32_MIN / 3` are kept as their concrete values.
Matrices `matrix_t` are total functions `Nat → Nat → Int`; the
`std::vector` assignments `m[a][b] = x` are modelled as pointwise
function updates performed in the source's assignment order.
Loops and recursions that the C++ source runs unboundedly are modelled
with an explicit fuel argument returning `Option`; `none` means the fuel
was exhausted, and the development proves that the fuel supplied by the
top-level entry points suffices on valid inputs, so `none` corresponds
exactly to a non-terminating C++ execution.
-/

namespace Graph

/-- `limits::inf = std::numeric_limits<int32_t>::max() / 3` from graph.hpp. -/
def inf : Int := 715827882

/-- `limits::nil = std::numeric_limits<int32_t>::min() / 3` from graph.hpp. -/
def nil : Int := -715827882

/-- `matrix_t`: the capacity and flow matrices of both engines. -/
abbrev Mat := Nat → Nat → Int

/-- A single C++ assignment `m[a][b] = x` on a matrix. -/
def setM (m : Mat) (a b : Nat) (x : Int) : Mat :=
  fun p q => if p = a ∧ q = b then x else m p q

/-- A single C++ compound assignment `m[a][b] += d` on a matrix. -/
def addM (m : Mat) (a b : Nat) (d : Int) : Mat :=
  fun p q => if p = a ∧ q = b then m a b + d else m p q

/-- The data both engines share: vertex count `n`, capacity matrix `c`,
flow matrix `f` and the residual adjacency lists `Gf`
(fields of `struct ford_fulkerson` and `struct edmonds_karp`). -/
structure Net where
  n : Nat
  c : Mat
  f : Mat
  Gf : Nat → List Nat

/-- The state right after the `(size)` constructor of either engine:
all-zero matrices and empty adjacency lists. -/
def initNet (size : Nat) : Net :=
  { n := size, c := fun _ _ => 0, f := fun _ _ => 0, Gf := fun _ => [] }

/-- `Gf[a].push_back(b)`. -/
def pushAdj (G : Nat → List Nat) (a b : Nat) : Nat → List Nat :=
  fun p => if p = a then G a ++ [b] else G p

/-- `add_edge(u, v, cap)`, identical in both engines:
`c[u][v] = cap; f[u][v] = 0; c[v][u] = 0; f[v][u] = 0;`
then `Gf[u].push_back(v); Gf[v].push_back(u);`.
No argument validation is performed by the source. -/
def add_edge (net : Net) (u v : Nat) (cap : Int) : Net :=
  { net with
    c := setM (setM net.c u v cap) v u 0
    f := setM (setM net.f u v 0) v u 0
    Gf := pushAdj (pushAdj net.Gf u v) v u }

/-- An input edge `(src, dst, capacity)`. -/
abbrev Edge := Nat × Nat × Int

/-- The `(const graph_t&)` constructor: start from the `(size)` constructor
state and `add_edge` every input edge in order. -/
def mkNet (size : Nat) (es : List Edge) : Net :=
  es.foldl (fun net e => add_edge net e.1 e.2.1 e.2.2) (initNet size)

/-- `cf(u, v) = c[u][v] - f[u][v]`, the residual-capacity query shared by
both engines. -/
def cf (c f : Mat) (u v : Nat) : Int := c u v - f u v

/-! ### Ford-Fulkerson engine (`ford_fulkerson.hpp`) -/

/-- The mutable state threaded through the Ford-Fulkerson search:
the matrices `c`, `f` and the `visited` stamps.  (`Gf` and `n` are never
written after construction and are passed as parameters.) -/
structure FFSt where
  c : Mat
  f : Mat
  visited : Nat → Bool

/-- `visited[u] = true`. -/
def markFF (st : FFSt) (u : Nat) : FFSt :=
  { st with visited := fun x => if x = u then true else st.visited x }

/-- The augmentation pair of assignments of `dfs_visit`:
`f[u][v] += cfp; f[v][u] -= cfp;`. -/
def pushFlowFF (st : FFSt) (u v : Nat) (cfp : Int) : FFSt :=
  { st with f := addM (addM st.f u v cfp) v u (-cfp) }

/-- The `for (auto&& v : Gf[u])` loop body of `dfs_visit`, parameterized by
the recursive call `rec` (the callee `dfs_visit` at one lower fuel):
skip `v` when `visited[v] || cf(u, v) == 0`; otherwise recurse with
bottleneck `min(flow, cf(u, v))`; on a positive result augment the edge
`(u, v)` and return, else keep scanning. -/
def dfsScan (rec : FFSt → Nat → Int → Option (FFSt × Int)) :
    FFSt → Nat → Int → List Nat → Option (FFSt × Int)
  | st, _, _, [] => some (st, 0)
  | st, u, flow, v :: vs =>
    if st.visited v = true ∨ cf st.c st.f u v = 0 then dfsScan rec st u flow vs
    else
      match rec st v (min flow (cf st.c st.f u v)) with
      | none => none
      | some (st1, cfp) =>
        if 0 < cfp then some (pushFlowFF st1 u v cfp, cfp)
        else dfsScan rec st1 u flow vs

/-- `dfs_visit(u, t, flow)`: mark `u` visited, return `flow` when
`u == t`, otherwise scan the residual adjacency `Gf[u]`.  The C++
recursion is unbounded; `fuel` makes it structural, and fuel sufficiency
is proved separately. -/
def dfs_visit (Gf : Nat → List Nat) (t : Nat) :
    Nat → FFSt → Nat → Int → Option (FFSt × Int)
  | 0, _, _, _ => none
  | fuel + 1, st, u, flow =>
    let st1 := markFF st u
    if u = t then some (st1, flow)
    else dfsScan (dfs_visit Gf t fuel) st1 u flow (Gf u)

/-- `dfs(u, t)`: reset all visited stamps, run `dfs_visit(u, t, limits::inf)`;
the result is the new state together with `augment`; the C++ function
returns `augment > 0`. -/
def ffDfs (Gf : Nat → List Nat) (t : Nat) (fuel : Nat) (st : FFSt) (u : Nat) :
    Option (FFSt × Int) :=
  dfs_visit Gf t fuel { st with visited := fun _ => false } u inf

/-- The `while (dfs(s, t)) { flow += augment; }` loop of
`ford_fulkerson::compute`, fueled.  Each `dfs` call receives fuel
`n + 1`, which is proved sufficient for the inner recursion. -/
def ffLoop (Gf : Nat → List Nat) (n t : Nat) :
    Nat → FFSt → Nat → Int → Option (Int × FFSt)
  | 0, _, _, _ => none
  | fuel + 1, st, s, flow =>
    match ffDfs Gf t (n + 1) st s with
    | none => none
    | some (st1, aug) =>
      if 0 < aug then ffLoop Gf n t fuel st1 s (flow + aug)
      else some (flow, st1)

/-- Sum of the positive parts of all capacity entries: an upper bound for
the flow value, used to provision the augmentation-loop fuel. -/
def totalCap (net : Net) : Int :=
  ∑ u ∈ Finset.range net.n, ∑ v ∈ Finset.range net.n, max (net.c u v) 0

/-- Fuel provisioned for the search-and-augment loop of either engine. -/
def loopFuel (net : Net) : Nat := (totalCap net).toNat + 1

/-- `ford_fulkerson::compute(s, t)` together with the final mutable state
(the C++ object retains its matrices after `compute` returns).
`none` models a non-terminating execution. -/
def ffComputeFull (net : Net) (s t : Nat) : Option (Int × FFSt) :=
  ffLoop net.Gf net.n t (loopFuel net) ⟨net.c, net.f, fun _ => false⟩ s 0

/-- The value returned by `ford_fulkerson::compute(s, t)`. -/
def ffCompute (net : Net) (s t : Nat) : Option Int :=
  (ffComputeFull net s t).map Prod.fst

/-! ### Edmonds-Karp engine (`edmonds_karp.hpp`) -/

/-- The mutable state of the Edmonds-Karp engine: matrices `c`, `f`,
`visited` stamps and the predecessor array `pi` (of C++ type `index_t`,
holding either a vertex index or `limits::nil`). -/
structure EKSt where
  c : Mat
  f : Mat
  visited : Nat → Bool
  pi : Nat → Int

/-- The `for (auto&& v : Gf[u])` body of `edmonds_karp::bfs`: skip `v`
when `visited[v] || cf(u, v) == 0`, otherwise mark it, record `pi[v] = u`
and push it on the back of the queue. -/
def bfsScan : EKSt → Nat → List Nat → List Nat → EKSt × List Nat
  | st, _, q, [] => (st, q)
  | st, u, q, v :: vs =>
    if st.visited v = true ∨ cf st.c st.f u v = 0 then bfsScan st u q vs
    else
      bfsScan
        { st with
          visited := fun x => if x = v then true else st.visited x
          pi := fun x => if x = v then (u : Int) else st.pi x }
        u (q ++ [v]) vs

/-- The `while (!Q.empty())` loop of `edmonds_karp::bfs`, fueled;
the queue front is the list head, pushes append at the back. -/
def bfsLoop (Gf : Nat → List Nat) : Nat → EKSt → List Nat → Option EKSt
  | _, st, [] => some st
  | 0, _, _ :: _ => none
  | fuel + 1, st, u :: q =>
    let p := bfsScan st u q (Gf u)
    bfsLoop Gf fuel p.1 p.2

/-- `edmonds_karp::bfs(s, t)`: reset `pi` to `nil` and `visited` to false,
mark `s` (with `pi[s] = nil`), run the queue loop from `[s]`, and return
`visited[t]`.  The loop fuel `2 * n` is proved sufficient. -/
def ekBfs (Gf : Nat → List Nat) (n : Nat) (st : EKSt) (s t : Nat) :
    Option (EKSt × Bool) :=
  let st0 : EKSt := { st with pi := fun _ => nil, visited := fun _ => false }
  let st1 : EKSt :=
    { st0 with
      pi := fun x => if x = s then nil else st0.pi x
      visited := fun x => if x = s then true else st0.visited x }
  (bfsLoop Gf (2 * n) st1 [s]).map fun st2 => (st2, st2.visited t)

/-- The first `while (v != s)` loop of `edmonds_karp::proc`:
`cf_p = min(cf_p, cf(pi[v], v)); v = pi[v];`, fueled.  The C++ index
`pi[v]` is an `index_t`; walking it is modelled with `Int.toNat`, exact
whenever the predecessor is an actual vertex. -/
def procMin (c f : Mat) (pi : Nat → Int) (s : Nat) :
    Nat → Nat → Int → Option Int
  | 0, v, acc => if v = s then some acc else none
  | fuel + 1, v, acc =>
    if v = s then some acc
    else procMin c f pi s fuel (pi v).toNat (min acc (cf c f (pi v).toNat v))

/-- The second `while (v != s)` loop of `edmonds_karp::proc`:
`f[pi[v]][v] += cf_p; f[v][pi[v]] -= cf_p; v = pi[v];`, fueled. -/
def procUpd (pi : Nat → Int) (cfp : Int) (s : Nat) :
    Nat → Nat → Mat → Option Mat
  | 0, v, f => if v = s then some f else none
  | fuel + 1, v, f =>
    if v = s then some f
    else procUpd pi cfp s fuel (pi v).toNat
      (addM (addM f (pi v).toNat v cfp) v (pi v).toNat (-cfp))

/-- `edmonds_karp::proc(s, t)`: compute the bottleneck `cf_p` along the
predecessor chain from `t` to `s` (starting from `limits::inf`), then
augment every chain edge by `cf_p`.  Walk fuel `n` is proved sufficient. -/
def ekProc (n : Nat) (st : EKSt) (s t : Nat) : Option (EKSt × Int) :=
  match procMin st.c st.f st.pi s n t inf with
  | none => none
  | some cfp =>
    match procUpd st.pi cfp s n t st.f with
    | none => none
    | some f2 => some ({ st with f := f2 }, cfp)

/-- The `while (bfs(s, t)) { flow += proc(s, t); }` loop of
`edmonds_karp::compute`, fueled. -/
def ekLoop (Gf : Nat → List Nat) (n t : Nat) :
    Nat → EKSt → Nat → Int → Option (Int × EKSt)
  | 0, _, _, _ => none
  | fuel + 1, st, s, flow =>
    match ekBfs Gf n st s t with
    | none => none
    | some (st1, found) =>
      if found then
        match ekProc n st1 s t with
        | none => none
        | some (st2, cfp) => ekLoop Gf n t fuel st2 s (flow + cfp)
      else some (flow, st1)

/-- `edmonds_karp::compute(s, t)` together with the final mutable state. -/
def ekComputeFull (net : Net) (s t : Nat) : Option (Int × EKSt) :=
  ekLoop net.Gf net.n t (loopFuel net)
    ⟨net.c, net.f, fun _ => false, fun _ => nil⟩ s 0

/-- The value returned by `edmonds_karp::compute(s, t)`. -/
def ekCompute (net : Net) (s t : Nat) : Option Int :=
  (ekComputeFull net s t).map Prod.fst

/-! ### Verification vocabulary -/

/-- `touches e p q`: the `add_edge` call for `e` writes the matrix entry
`(p, q)` (it writes exactly the entries `(e.src, e.dst)` and
`(e.dst, e.src)`). -/
def touches (e : Edge) (p q : Nat) : Prop :=
  (e.1 = p ∧ e.2.1 = q) ∨ (e.1 = q ∧ e.2.1 = p)

/-- A valid construction input in the sense of the spec (§3, §6): vertex
indices in range, no self-loops, non-negative capacities, and no two
edges sharing the same unordered endpoint pair (in particular no
opposite-direction pair of original edges). -/
def ValidInput (n : Nat) (es : List Edge) : Prop :=
  (∀ e ∈ es, e.1 < n ∧ e.2.1 < n ∧ e.1 ≠ e.2.1 ∧ 0 ≤ e.2.2) ∧
  es.Pairwise fun e e' => ¬ touches e e'.1 e'.2.1

instance (e : Edge) (p q : Nat) : Decidable (touches e p q) := by
  unfold touches
  infer_instance

instance (n : Nat) (es : List Edge) : Decidable (ValidInput n es) := by
  unfold ValidInput
  infer_instance

/-- `(u, v)` is an original edge of the input. -/
def isEdge (es : List Edge) (u v : Nat) : Prop :=
  ∃ e ∈ es, e.1 = u ∧ e.2.1 = v

/-- The consecutive ordered pairs of a vertex list. -/
def pathEdges (p : List Nat) : List (Nat × Nat) := p.zip p.tail

/-- Augment every consecutive edge `(a, b)` of the vertex list by `d`
(`f[a][b] += d; f[b][a] -= d`), edges applied from the tail of the list
first — exactly the assignment order both engines use (they update from
the sink end of the path back to the source). -/
def augmentPath (f : Mat) (d : Int) : List Nat → Mat
  | a :: b :: rest => addM (addM (augmentPath f d (b :: rest)) a b d) b a (-d)
  | _ => f

/-- The elementary assignment sequence an augmentation performs:
for each path edge, sink-side edges first, the `+=` assignment then the
`-=` assignment. -/
def updSeq (d : Int) : List Nat → List (Nat × Nat × Int)
  | a :: b :: rest => updSeq d (b :: rest) ++ [(a, b, d), (b, a, -d)]
  | _ => []

/-- Apply a list of elementary `+=` assignments in order. -/
def applyUpds (f : Mat) (l : List (Nat × Nat × Int)) : Mat :=
  l.foldl (fun m u => addM m u.1 u.2.1 u.2.2) f

/-- Net flow leaving vertex `v`: the row sum of the flow matrix. -/
def exc (n : Nat) (f : Mat) (v : Nat) : Int :=
  ∑ x ∈ Finset.range n, f v x

/-- Feasibility invariant tied to the representation both engines use:
skew symmetry, the capacity bound on every ordered pair, and vanishing
off the recorded adjacency. -/
def Feasible (Gf : Nat → List Nat) (c f : Mat) : Prop :=
  (∀ u v, f u v = - f v u) ∧ (∀ u v, f u v ≤ c u v) ∧
  (∀ u v, v ∉ Gf u → f u v = 0)

/-- Flow conservation at every vertex other than `s` and `t`. -/
def Conserved (n s t : Nat) (f : Mat) : Prop :=
  ∀ v, v < n → v ≠ s → v ≠ t → exc n f v = 0

/-- Reachability along ordered pairs of strictly positive residual
capacity. -/
def Reach (c f : Mat) (a b : Nat) : Prop :=
  Relation.ReflTransGen (fun x y => 0 < cf c f x y) a b

/-- An augmenting path from `s` to `t` with bottleneck at least `r`:
simple, following the recorded adjacency, every edge with residual
capacity at least `r > 0`. -/
structure AugPathOK (Gf : Nat → List Nat) (c f : Mat) (s t : Nat)
    (r : Int) (p : List Nat) : Prop where
  head : p.head? = some s
  last : p.getLast? = some t
  nodup : p.Nodup
  chain : List.Chain' (fun a b => b ∈ Gf a ∧ r ≤ cf c f a b) p
  pos : 0 < r

/-- A predecessor chain recorded by the BFS: `p` walks from `x` down to
`s` following `pi`, is simple, and every walked edge `(pi[v], v)` has
positive residual capacity and is in the recorded adjacency. -/
def PiChain (Gf : Nat → List Nat) (c f : Mat) (pi : Nat → Int)
    (s x : Nat) (p : List Nat) : Prop :=
  p.head? = some x ∧ p.getLast? = some s ∧ p.Nodup ∧
  List.Chain' (fun a b => pi a = (b : Int) ∧ a ∈ Gf b ∧ 0 < cf c f b a) p

/-- The state of either engine after exactly `k` completed
search-and-augment iterations of `ford_fulkerson::compute` (an
observation point of the spec); if the loop guard fails earlier the
terminal state is returned. -/
def ffRun (Gf : Nat → List Nat) (n t : Nat) :
    Nat → FFSt → Nat → Int → Option (Int × FFSt)
  | 0, st, _, flow => some (flow, st)
  | k + 1, st, s, flow =>
    match ffDfs Gf t (n + 1) st s with
    | none => none
    | some (st1, aug) =>
      if 0 < aug then ffRun Gf n t k st1 s (flow + aug)
      else some (flow, st1)

/-- The state of the Edmonds-Karp engine after exactly `k` completed
search-and-augment iterations of `edmonds_karp::compute`. -/
def ekRun (Gf : Nat → List Nat) (n t : Nat) :
    Nat → EKSt → Nat → Int → Option (Int × EKSt)
  | 0, st, _, flow => some (flow, st)
  | k + 1, st, s, flow =>
    match ekBfs Gf n st s t with
    | none => none
    | some (st1, found) =>
      if found then
        match ekProc n st1 s t with
        | none => none
        | some (st2, cfp) => ekRun Gf n t k st2 s (flow + cfp)
      else some (flow, st1)

/-- Modelled from the spec: the early-terminating level-order search the
spec describes for the BFS path finder (§4.3, "terminates early once the
sink is marked visited") — identical to `bfsLoop` except that it stops
expanding as soon as the sink is visited.  The repository's `bfs` has no
such check; this definition exists to compare the two behaviours. -/
def bfsEarlyLoop (Gf : Nat → List Nat) (t : Nat) :
    Nat → EKSt → List Nat → Option EKSt
  | _, st, [] => some st
  | 0, _, _ :: _ => none
  | fuel + 1, st, u :: q =>
    if st.visited t then some st
    else
      let p := bfsScan st u q (Gf u)
      bfsEarlyLoop Gf t fuel p.1 p.2

/-- Postcondition of `dfs_visit(u, t, flow)` (and of the scan over
`Gf[u]` it performs): the capacity matrix is untouched, the visited set
only grows and only inside `{u} ∪ range Gf`, a zero result leaves the
flow matrix untouched, and a positive result `r` augments the flow along
a simple path from `u` to `t` whose edges all have residual capacity at
least `r`, with `r` at most the carried bottleneck. -/
def DfsPost (Gf : Nat → List Nat) (t u : Nat) (st : FFSt) (fl : Int)
    (st' : FFSt) (r : Int) : Prop :=
  st'.c = st.c ∧
  st'.visited u = true ∧
  (∀ x, st.visited x = true → st'.visited x = true) ∧
  (∀ x, st'.visited x = true → st.visited x = true ∨ x = u ∨ ∃ w, x ∈ Gf w) ∧
  (r ≤ 0 → st'.f = st.f) ∧
  (0 < r → r ≤ fl ∧ ∃ p, p.head? = some u ∧ p.getLast? = some t ∧ p.Nodup ∧
    (∀ x ∈ p, x = u ∨ st.visited x = false) ∧
    List.Chain' (fun a b => b ∈ Gf a ∧ r ≤ cf st.c st.f a b) p ∧
    st'.f = augmentPath st.f r p)

/-! ### Pointwise update lemmas -/

theorem setM_same (m : Mat) (a b : Nat) (x : Int) : setM m a b x a b = x := by
  simp [setM]

theorem setM_other (m : Mat) (a b p q : Nat) (x : Int)
    (h : ¬(p = a ∧ q = b)) : setM m a b x p q = m p q := by
  simp only [setM, if_neg h]

theorem addM_apply (m : Mat) (a b p q : Nat) (d : Int) :
    addM m a b d p q = m p q + (if p = a ∧ q = b then d else 0) := by
  by_cases h : p = a ∧ q = b
  · obtain ⟨rfl, rfl⟩ := h
    simp [addM]
  · simp [addM, h]

theorem markFF_c (st : FFSt) (u : Nat) : (markFF st u).c = st.c := rfl

theorem markFF_f (st : FFSt) (u : Nat) : (markFF st u).f = st.f := rfl

theorem markFF_visited (st : FFSt) (u x : Nat) :
    (markFF st u).visited x = if x = u then true else st.visited x := rfl

theorem pushFlowFF_c (st : FFSt) (u v : Nat) (d : Int) :
    (pushFlowFF st u v d).c = st.c := rfl

theorem pushFlowFF_visited (st : FFSt) (u v : Nat) (d : Int) :
    (pushFlowFF st u v d).visited = st.visited := rfl

/-! ### Characterization of `mkNet` -/

theorem foldl_add_edge_n (es : List Edge) (net : Net) :
    (es.foldl (fun net e => add_edge net e.1 e.2.1 e.2.2) net).n = net.n := by
  induction es generalizing net with
  | nil => rfl
  | cons e rest ih => exact ih (add_edge net e.1 e.2.1 e.2.2)

theorem mkNet_n (n : Nat) (es : List Edge) : (mkNet n es).n = n :=
  foldl_add_edge_n es (initNet n)

theorem add_edge_c_untouched (net : Net) (u v p q : Nat) (cap : Int)
    (h : ¬ touches (u, v, cap) p q) :
    (add_edge net u v cap).c p q = net.c p q := by
  have h1 : ¬(p = u ∧ q = v) := fun hc => h (Or.inl ⟨hc.1.symm, hc.2.symm⟩)
  have h2 : ¬(p = v ∧ q = u) := fun hc => h (Or.inr ⟨hc.2.symm, hc.1.symm⟩)
  show setM (setM net.c u v cap) v u 0 p q = net.c p q
  rw [setM_other _ _ _ _ _ _ h2, setM_other _ _ _ _ _ _ h1]

theorem foldl_add_edge_c_untouched (es : List Edge) (net : Net) (p q : Nat)
    (h : ∀ e ∈ es, ¬ touches e p q) :
    (es.foldl (fun net e => add_edge net e.1 e.2.1 e.2.2) net).c p q
      = net.c p q := by
  induction es generalizing net with
  | nil => rfl
  | cons e rest ih =>
    have := ih (add_edge net e.1 e.2.1 e.2.2) fun e' he' => h e' (List.mem_cons_of_mem _ he')
    rw [List.foldl_cons, this, add_edge_c_untouched]
    exact h e (List.mem_cons_self _ _)

theorem touches_symm {e : Edge} {p q : Nat} (h : touches e p q) : touches e q p :=
  h.elim (fun hc => Or.inr ⟨hc.1, hc.2⟩) fun hc => Or.inl ⟨hc.1, hc.2⟩

theorem foldl_add_edge_c_edge (es : List Edge) (net : Net) (u v : Nat)
    (cap : Int) (huv : u ≠ v)
    (hpw : es.Pairwise fun e e' => ¬ touches e e'.1 e'.2.1)
    (hmem : (u, v, cap) ∈ es) :
    (es.foldl (fun net e => add_edge net e.1 e.2.1 e.2.2) net).c u v = cap ∧
    (es.foldl (fun net e => add_edge net e.1 e.2.1 e.2.2) net).c v u = 0 := by
  induction es generalizing net with
  | nil => cases hmem
  | cons e rest ih =>
    rcases List.mem_cons.mp hmem with rfl | hmem'
    · have hrest : ∀ e' ∈ rest, ¬ touches e' u v := by
        intro e' he' hc
        exact (List.pairwise_cons.mp hpw).1 e' he'
          (hc.elim (fun h => Or.inl ⟨h.1.symm, h.2.symm⟩)
            fun h => Or.inr ⟨h.2.symm, h.1.symm⟩)
      have hrest' : ∀ e' ∈ rest, ¬ touches e' v u := fun e' he' hc =>
        hrest e' he' (touches_symm hc)
      rw [List.foldl_cons, foldl_add_edge_c_untouched _ _ _ _ hrest,
        foldl_add_edge_c_untouched _ _ _ _ hrest']
      refine ⟨?_, setM_same _ _ _ _⟩
      show setM (setM net.c u v cap) v u 0 u v = cap
      rw [setM_other _ _ _ _ _ _ fun hc => huv hc.1, setM_same]
    · rw [List.foldl_cons]
      exact ih _ (List.Pairwise.of_cons hpw) hmem'

theorem mkNet_c_edge (n : Nat) (es : List Edge) (hval : ValidInput n es)
    (u v : Nat) (cap : Int) (he : (u, v, cap) ∈ es) :
    (mkNet n es).c u v = cap ∧ (mkNet n es).c v u = 0 :=
  foldl_add_edge_c_edge es (initNet n) u v cap (hval.1 _ he).2.2.1 hval.2 he

theorem foldl_add_edge_c_zero (es : List Edge) (net : Net) (u v : Nat)
    (h0 : net.c u v = 0) (hno : ∀ cap, (u, v, cap) ∉ es) :
    (es.foldl (fun net e => add_edge net e.1 e.2.1 e.2.2) net).c u v = 0 := by
  induction es generalizing net with
  | nil => exact h0
  | cons e rest ih =>
    rw [List.foldl_cons]
    refine ih _ ?_ fun cap hc => hno cap (List.mem_cons_of_mem _ hc)
    by_cases ht : touches e u v
    · rcases ht with ⟨h1, h2⟩ | ⟨h1, h2⟩
      · exact absurd (show (u, v, e.2.2) ∈ e :: rest by
          have : e = (u, v, e.2.2) := by
            obtain ⟨a, b, c⟩ := e
            simp_all
          rw [← this]; exact List.mem_cons_self _ _) (hno e.2.2)
      · -- e = (v, u, cap'): the second write zeroes (u, v)
        show setM (setM net.c e.1 e.2.1 e.2.2) e.2.1 e.1 0 u v = 0
        subst h1 h2
        exact setM_same _ _ _ _
    · rw [add_edge_c_untouched _ _ _ _ _ _ ht]
      exact h0

theorem mkNet_c_zero (n : Nat) (es : List Edge) (u v : Nat)
    (hno : ∀ cap, (u, v, cap) ∉ es) : (mkNet n es).c u v = 0 :=
  foldl_add_edge_c_zero es (initNet n) u v rfl hno

theorem foldl_add_edge_f (es : List Edge) (net : Net) (p q : Nat)
    (h0 : net.f p q = 0) :
    (es.foldl (fun net e => add_edge net e.1 e.2.1 e.2.2) net).f p q = 0 := by
  induction es generalizing net with
  | nil => exact h0
  | cons e rest ih =>
    rw [List.foldl_cons]
    refine ih _ ?_
    show setM (setM net.f e.1 e.2.1 0) e.2.1 e.1 0 p q = 0
    by_cases h2 : p = e.2.1 ∧ q = e.1
    · rw [setM]; simp [h2]
    · rw [setM_other _ _ _ _ _ _ h2]
      by_cases h1 : p = e.1 ∧ q = e.2.1
      · rw [setM]; simp [h1]
      · rw [setM_other _ _ _ _ _ _ h1]; exact h0

theorem mkNet_f (n : Nat) (es : List Edge) (p q : Nat) :
    (mkNet n es).f p q = 0 :=
  foldl_add_edge_f es (initNet n) p q rfl

theorem mem_pushAdj (G : Nat → List Nat) (a b x w : Nat) :
    w ∈ pushAdj G a b x ↔ w ∈ G x ∨ (x = a ∧ w = b) := by
  by_cases hx : x = a
  · subst hx
    simp [pushAdj]
  · simp [pushAdj, hx]

theorem mem_add_edge_Gf (net : Net) (u v x w : Nat) (cap : Int) :
    w ∈ (add_edge net u v cap).Gf x ↔
      w ∈ net.Gf x ∨ (x = u ∧ w = v) ∨ (x = v ∧ w = u) := by
  show w ∈ pushAdj (pushAdj net.Gf u v) v u x ↔ _
  rw [mem_pushAdj, mem_pushAdj]
  tauto

theorem mem_foldl_add_edge_Gf (es : List Edge) (net : Net) (x w : Nat) :
    w ∈ (es.foldl (fun net e => add_edge net e.1 e.2.1 e.2.2) net).Gf x ↔
      w ∈ net.Gf x ∨ ∃ e ∈ es, touches e x w := by
  induction es generalizing net with
  | nil => simp
  | cons e rest ih =>
    rw [List.foldl_cons, ih, mem_add_edge_Gf]
    constructor
    · rintro ((h | ⟨h1, h2⟩ | ⟨h1, h2⟩) | ⟨e', he', ht⟩)
      · exact Or.inl h
      · exact Or.inr ⟨e, List.mem_cons_self _ _, Or.inl ⟨h1.symm, h2.symm⟩⟩
      · exact Or.inr ⟨e, List.mem_cons_self _ _, Or.inr ⟨h2.symm, h1.symm⟩⟩
      · exact Or.inr ⟨e', List.mem_cons_of_mem _ he', ht⟩
    · rintro (h | ⟨e', he', ht⟩)
      · exact Or.inl (Or.inl h)
      · rcases List.mem_cons.mp he' with rfl | he''
        · rcases ht with ⟨h1, h2⟩ | ⟨h1, h2⟩
          · exact Or.inl (Or.inr (Or.inl ⟨h1.symm, h2.symm⟩))
          · exact Or.inl (Or.inr (Or.inr ⟨h2.symm, h1.symm⟩))
        · exact Or.inr ⟨e', he'', ht⟩

theorem mem_mkNet_Gf (n : Nat) (es : List Edge) (x w : Nat) :
    w ∈ (mkNet n es).Gf x ↔ ∃ e ∈ es, touches e x w := by
  rw [mkNet, mem_foldl_add_edge_Gf]
  simp [initNet]

theorem mkNet_Gf_symm (n : Nat) (es : List Edge) (x w : Nat) :
    w ∈ (mkNet n es).Gf x ↔ x ∈ (mkNet n es).Gf w := by
  rw [mem_mkNet_Gf, mem_mkNet_Gf]
  exact ⟨fun ⟨e, he, ht⟩ => ⟨e, he, touches_symm ht⟩,
    fun ⟨e, he, ht⟩ => ⟨e, he, touches_symm ht⟩⟩

theorem mkNet_Gf_range (n : Nat) (es : List Edge) (hval : ValidInput n es)
    (x w : Nat) (hw : w ∈ (mkNet n es).Gf x) : w < n ∧ x < n := by
  rcases (mem_mkNet_Gf n es x w).mp hw with ⟨e, he, ht⟩
  have := hval.1 e he
  rcases ht with ⟨h1, h2⟩ | ⟨h1, h2⟩ <;> subst h1 <;> subst h2 <;>
    exact ⟨by tauto, by tauto⟩

theorem mkNet_c_nonneg (n : Nat) (es : List Edge) (hval : ValidInput n es)
    (u v : Nat) : 0 ≤ (mkNet n es).c u v := by
  by_cases he : ∃ cap, (u, v, cap) ∈ es
  · rcases he with ⟨cap, he⟩
    rw [(mkNet_c_edge n es hval u v cap he).1]
    exact (hval.1 _ he).2.2.2
  · push_neg at he
    rw [mkNet_c_zero n es u v he]

theorem mkNet_c_adj (n : Nat) (es : List Edge) (u v : Nat)
    (h : (mkNet n es).c u v ≠ 0) : v ∈ (mkNet n es).Gf u := by
  by_cases he : ∃ cap, (u, v, cap) ∈ es
  · rcases he with ⟨cap, he⟩
    exact (mem_mkNet_Gf n es u v).mpr ⟨(u, v, cap), he, Or.inl ⟨rfl, rfl⟩⟩
  · push_neg at he
    exact absurd (mkNet_c_zero n es u v he) h

/-! ### Path edge bookkeeping -/

theorem pathEdges_cons₂ (a b : Nat) (rest : List Nat) :
    pathEdges (a :: b :: rest) = (a, b) :: pathEdges (b :: rest) := rfl

theorem pathEdges_short (p : List Nat) (h : p.length ≤ 1) :
    pathEdges p = [] := by
  match p, h with
  | [], _ => rfl
  | [a], _ => rfl

theorem mem_pathEdges (p : List Nat) (x y : Nat)
    (h : (x, y) ∈ pathEdges p) : x ∈ p ∧ y ∈ p.tail := by
  induction p with
  | nil => cases h
  | cons a rest ih =>
    cases rest with
    | nil => cases h
    | cons b rest' =>
      rw [pathEdges_cons₂] at h
      rcases List.mem_cons.mp h with heq | h'
      · injection heq with h1 h2
        subst h1; subst h2
        exact ⟨List.mem_cons_self _ _, List.mem_cons_self _ _⟩
      · have := ih h'
        exact ⟨List.mem_cons_of_mem _ this.1, List.mem_cons_of_mem _ this.2⟩

theorem chain'_rel_of_mem_pathEdges {R : Nat → Nat → Prop} (p : List Nat)
    (hc : List.Chain' R p) (x y : Nat) (h : (x, y) ∈ pathEdges p) :
    R x y := by
  induction p with
  | nil => cases h
  | cons a rest ih =>
    cases rest with
    | nil => cases h
    | cons b rest' =>
      rw [pathEdges_cons₂] at h
      rcases List.mem_cons.mp h with heq | h'
      · injection heq with h1 h2
        subst h1; subst h2
        exact (List.chain'_cons.mp hc).1
      · exact ih (List.chain'_cons.mp hc).2 h'

theorem pathEdges_no_reverse (p : List Nat) (hnd : p.Nodup) (x y : Nat)
    (h1 : (x, y) ∈ pathEdges p) (h2 : (y, x) ∈ pathEdges p) : False := by
  induction p with
  | nil => cases h1
  | cons a rest ih =>
    cases rest with
    | nil => cases h1
    | cons b rest' =>
      rw [pathEdges_cons₂] at h1 h2
      have hnd' := List.nodup_cons.mp hnd
      rcases List.mem_cons.mp h1 with he1 | h1'
      · injection he1 with hx hy
        subst hx; subst hy
        rcases List.mem_cons.mp h2 with he2 | h2'
        · injection he2 with hy' hx'
          exact hnd'.1 (hy' ▸ List.mem_cons_self _ _)
        · exact hnd'.1 (List.mem_cons_of_mem _ (mem_pathEdges _ _ _ h2').2)
      · rcases List.mem_cons.mp h2 with he2 | h2'
        · injection he2 with hy hx
          subst hy; subst hx
          exact hnd'.1 (List.mem_cons_of_mem _ (mem_pathEdges _ _ _ h1').2)
        · exact ih hnd'.2 h1' h2'

theorem pathEdges_count_le_one (p : List Nat) (hnd : p.Nodup) (x y : Nat) :
    (pathEdges p).count (x, y) ≤ 1 := by
  induction p with
  | nil => simp [pathEdges]
  | cons a rest ih =>
    cases rest with
    | nil => simp [pathEdges]
    | cons b rest' =>
      rw [pathEdges_cons₂]
      have hnd' := List.nodup_cons.mp hnd
      by_cases he : ((x, y) : Nat × Nat) = (a, b)
      · injection he with hx hy
        rw [hx, hy]
        have h0 : (pathEdges (b :: rest')).count (a, b) = 0 := by
          rw [List.count_eq_zero]
          intro hmem
          exact hnd'.1 (mem_pathEdges _ _ _ hmem).1
        rw [List.count_cons_self, h0]
      · rw [List.count_cons_of_ne fun hc => he hc]
        exact ih hnd'.2

/-! ### Effect of augmenting along a path -/

theorem augmentPath_apply (f : Mat) (d : Int) :
    ∀ (p : List Nat) (x y : Nat),
      augmentPath f d p x y
        = f x y + d * ((pathEdges p).count (x, y) : Int)
          - d * ((pathEdges p).count (y, x) : Int)
  | [], x, y => by simp [augmentPath, pathEdges]
  | [a], x, y => by simp [augmentPath, pathEdges]
  | a :: b :: rest, x, y => by
    have ih := augmentPath_apply f d (b :: rest) x y
    show (addM (addM (augmentPath f d (b :: rest)) a b d) b a (-d)) x y = _
    rw [addM_apply, addM_apply, ih, pathEdges_cons₂]
    simp only [List.count_cons, beq_iff_eq, Prod.mk.injEq]
    push_cast
    by_cases h1 : x = a ∧ y = b <;> by_cases h2 : x = b ∧ y = a
    · rw [if_pos h1, if_pos h2, if_pos ⟨h1.1.symm, h1.2.symm⟩,
        if_pos ⟨h2.2.symm, h2.1.symm⟩]
      ring
    · rw [if_pos h1, if_neg h2, if_pos ⟨h1.1.symm, h1.2.symm⟩,
        if_neg fun hc => h2 ⟨hc.2.symm, hc.1.symm⟩]
      ring
    · rw [if_neg h1, if_pos h2, if_neg fun hc => h1 ⟨hc.1.symm, hc.2.symm⟩,
        if_pos ⟨h2.2.symm, h2.1.symm⟩]
      ring
    · rw [if_neg h1, if_neg h2, if_neg fun hc => h1 ⟨hc.1.symm, hc.2.symm⟩,
        if_neg fun hc => h2 ⟨hc.2.symm, hc.1.symm⟩]
      ring

theorem augmentPath_untouched (f : Mat) (d : Int) (p : List Nat) (x y : Nat)
    (h1 : (x, y) ∉ pathEdges p) (h2 : (y, x) ∉ pathEdges p) :
    augmentPath f d p x y = f x y := by
  rw [augmentPath_apply]
  rw [List.count_eq_zero.mpr h1, List.count_eq_zero.mpr h2]
  simp

theorem augmentPath_skew (f : Mat) (d : Int) (p : List Nat)
    (hskew : ∀ u v, f u v = - f v u) (x y : Nat) :
    augmentPath f d p x y = - augmentPath f d p y x := by
  rw [augmentPath_apply, augmentPath_apply, hskew x y]
  ring

theorem augmentPath_le_c (c f : Mat) (d : Int) (p : List Nat)
    (hnd : p.Nodup) (hle : ∀ u v, f u v ≤ c u v) (hd : 0 ≤ d)
    (hcf : ∀ a b, (a, b) ∈ pathEdges p → d ≤ cf c f a b) (x y : Nat) :
    augmentPath f d p x y ≤ c x y := by
  rw [augmentPath_apply]
  by_cases hxy : (x, y) ∈ pathEdges p
  · have hyx : (y, x) ∉ pathEdges p := fun h =>
      pathEdges_no_reverse p hnd x y hxy h
    have hcnt : (pathEdges p).count (x, y) = 1 :=
      le_antisymm (pathEdges_count_le_one p hnd x y)
        (List.count_pos_iff.mpr hxy)
    rw [hcnt, List.count_eq_zero.mpr hyx]
    have := hcf x y hxy
    unfold cf at this
    push_cast
    linarith
  · rw [List.count_eq_zero.mpr hxy]
    have h0 : (0 : Int) ≤ d * ((pathEdges p).count (y, x) : Int) :=
      mul_nonneg hd (by positivity)
    have := hle x y
    push_cast
    linarith

theorem exc_addM (n : Nat) (m : Mat) (a b : Nat) (d : Int) (v : Nat) :
    exc n (addM m a b d) v = exc n m v + if v = a ∧ b < n then d else 0 := by
  simp only [exc, addM_apply, Finset.sum_add_distrib]
  congr 1
  by_cases hv : v = a
  · subst hv
    simp only [true_and]
    rw [Finset.sum_ite_eq' (Finset.range n) b fun _ => d]
    simp [Finset.mem_range]
  · simp [hv]

theorem exc_augmentPath (n : Nat) (f : Mat) (d : Int) :
    ∀ p : List Nat, (∀ x ∈ p, x < n) → ∀ v,
      exc n (augmentPath f d p) v
        = exc n f v + (if p.head? = some v then d else 0)
          - (if p.getLast? = some v then d else 0)
  | [], _, v => by simp [augmentPath]
  | [a], _, v => by
    by_cases hv : a = v <;> simp [augmentPath, hv]
  | a :: b :: rest, hr, v => by
    have ih := exc_augmentPath n f d (b :: rest)
      (fun x hx => hr x (List.mem_cons_of_mem _ hx)) v
    have ha : a < n := hr a (List.mem_cons_self _ _)
    have hb : b < n := hr b (List.mem_cons_of_mem _ (List.mem_cons_self _ _))
    show exc n (addM (addM (augmentPath f d (b :: rest)) a b d) b a (-d)) v = _
    rw [exc_addM, exc_addM, ih]
    have hlast : (a :: b :: rest).getLast? = (b :: rest).getLast? :=
      List.getLast?_cons_cons
    rw [hlast]
    simp only [List.head?_cons, Option.some.injEq]
    have e3 : (if v = a ∧ b < n then d else 0) = if a = v then d else 0 := by
      by_cases hva : a = v
      · rw [if_pos (⟨hva.symm, hb⟩ : v = a ∧ b < n), if_pos hva]
      · rw [if_neg (fun hc : v = a ∧ b < n => hva hc.1.symm), if_neg hva]
    have e4 : (if v = b ∧ a < n then -d else 0) = if b = v then -d else 0 := by
      by_cases hvb : b = v
      · rw [if_pos (⟨hvb.symm, ha⟩ : v = b ∧ a < n), if_pos hvb]
      · rw [if_neg (fun hc : v = b ∧ a < n => hvb hc.1.symm), if_neg hvb]
    rw [e3, e4]
    by_cases hvb : b = v <;> by_cases hva : a = v <;>
      simp only [hvb, hva, if_true, if_false] <;> ring

theorem augmentPath_support (Gf : Nat → List Nat) (f : Mat) (d : Int)
    (p : List Nat)
    (hadj : ∀ a b, (a, b) ∈ pathEdges p → b ∈ Gf a ∧ a ∈ Gf b)
    (hsupp : ∀ u v, v ∉ Gf u → f u v = 0) (u v : Nat) (h : v ∉ Gf u) :
    augmentPath f d p u v = 0 := by
  have h1 : (u, v) ∉ pathEdges p := fun hm => h (hadj u v hm).1
  have h2 : (v, u) ∉ pathEdges p := fun hm => h (hadj v u hm).2
  rw [augmentPath_untouched f d p u v h1 h2]
  exact hsupp u v h

/-! ### Elementary assignment sequences (mid-augmentation states) -/

theorem applyUpds_nil (f : Mat) : applyUpds f [] = f := rfl

theorem applyUpds_cons (f : Mat) (u : Nat × Nat × Int) (l : List (Nat × Nat × Int)) :
    applyUpds f (u :: l) = applyUpds (addM f u.1 u.2.1 u.2.2) l := rfl

theorem applyUpds_append (f : Mat) (l1 l2 : List (Nat × Nat × Int)) :
    applyUpds f (l1 ++ l2) = applyUpds (applyUpds f l1) l2 := by
  unfold applyUpds
  exact List.foldl_append _ _ _ _

theorem applyUpds_updSeq (f : Mat) (d : Int) :
    ∀ p : List Nat, applyUpds f (updSeq d p) = augmentPath f d p
  | [] => rfl
  | [a] => rfl
  | a :: b :: rest => by
    show applyUpds f (updSeq d (b :: rest) ++ [(a, b, d), (b, a, -d)]) = _
    rw [applyUpds_append, applyUpds_updSeq f d (b :: rest)]
    rfl

theorem applyUpds_untouched (x y : Nat) :
    ∀ (l : List (Nat × Nat × Int)) (f : Mat),
      (l.countP fun u => decide (x = u.1 ∧ y = u.2.1)) = 0 →
      applyUpds f l x y = f x y
  | [], f, _ => rfl
  | u :: l', f, h => by
    rw [List.countP_cons] at h
    have h1 : (l'.countP fun u => decide (x = u.1 ∧ y = u.2.1)) = 0 := by
      omega
    have h2 : ¬(x = u.1 ∧ y = u.2.1) := by
      intro hc
      simp [hc] at h
    rw [applyUpds_cons, applyUpds_untouched x y l' _ h1, addM_apply, if_neg h2,
      add_zero]

theorem applyUpds_take_cases (x y : Nat) :
    ∀ (l : List (Nat × Nat × Int)) (f : Mat),
      (l.countP fun u => decide (x = u.1 ∧ y = u.2.1)) ≤ 1 → ∀ k,
      applyUpds f (l.take k) x y = f x y ∨
      applyUpds f (l.take k) x y = applyUpds f l x y
  | [], f, _, k => by
    rw [List.take_nil]
    exact Or.inl rfl
  | u :: l', f, h, 0 => Or.inl rfl
  | u :: l', f, h, k + 1 => by
    rw [List.take_succ_cons, applyUpds_cons, applyUpds_cons]
    rw [List.countP_cons] at h
    by_cases hm : x = u.1 ∧ y = u.2.1
    · have hd : (decide (x = u.1 ∧ y = u.2.1)) = true := decide_eq_true hm
      rw [hd, if_pos rfl] at h
      have h0 : (l'.countP fun u => decide (x = u.1 ∧ y = u.2.1)) = 0 := by
        omega
      have htk : ((l'.take k).countP fun u => decide (x = u.1 ∧ y = u.2.1)) = 0 :=
        Nat.le_zero.mp
          (le_trans (List.Sublist.countP_le _ (List.take_sublist k l'))
            (le_of_eq h0))
      rw [applyUpds_untouched x y (l'.take k) _ htk,
        applyUpds_untouched x y l' _ h0]
      exact Or.inr rfl
    · have hd : (decide (x = u.1 ∧ y = u.2.1)) = false := decide_eq_false hm
      rw [hd] at h
      have h' : (l'.countP fun u => decide (x = u.1 ∧ y = u.2.1)) ≤ 1 := by
        simp only [Bool.false_eq_true, if_false, add_zero] at h
        exact h
      have heq : addM f u.1 u.2.1 u.2.2 x y = f x y := by
        rw [addM_apply, if_neg hm, add_zero]
      rcases applyUpds_take_cases x y l' (addM f u.1 u.2.1 u.2.2) h' k with hl | hr
      · exact Or.inl (hl.trans heq)
      · exact Or.inr hr

theorem updSeq_countP (x y : Nat) (d : Int) :
    ∀ p : List Nat,
      ((updSeq d p).countP fun u => decide (x = u.1 ∧ y = u.2.1))
        = (pathEdges p).count (x, y) + (pathEdges p).count (y, x)
  | [] => rfl
  | [a] => rfl
  | a :: b :: rest => by
    show ((updSeq d (b :: rest) ++ [(a, b, d), (b, a, -d)]).countP _) = _
    rw [List.countP_append, updSeq_countP x y d (b :: rest), pathEdges_cons₂]
    simp only [List.count_cons, beq_iff_eq, Prod.mk.injEq, List.countP_cons,
      List.countP_nil, decide_eq_true_eq]
    have e1 : (a = x ∧ b = y) ↔ (x = a ∧ y = b) :=
      ⟨fun h => ⟨h.1.symm, h.2.symm⟩, fun h => ⟨h.1.symm, h.2.symm⟩⟩
    have e2 : (a = y ∧ b = x) ↔ (x = b ∧ y = a) :=
      ⟨fun h => ⟨h.2.symm, h.1.symm⟩, fun h => ⟨h.2.symm, h.1.symm⟩⟩
    rw [if_congr e1 rfl rfl, if_congr e2 rfl rfl]
    ring

/-! ### The DFS search: specification -/

theorem dfsScan_post (Gf : Nat → List Nat) (t : Nat)
    (rec : FFSt → Nat → Int → Option (FFSt × Int))
    (hrec : ∀ st v fl st' r, rec st v fl = some (st', r) →
      DfsPost Gf t v st fl st' r) (u : Nat) :
    ∀ (vs : List Nat) (st : FFSt) (flow : Int) (st' : FFSt) (r : Int),
      dfsScan rec st u flow vs = some (st', r) →
      st.visited u = true →
      (∀ v ∈ vs, v ∈ Gf u) →
      DfsPost Gf t u st flow st' r
  | [], st, flow, st', r, h, hu, hvs => by
    simp only [dfsScan, Option.some.injEq, Prod.mk.injEq] at h
    obtain ⟨rfl, rfl⟩ := h
    refine ⟨rfl, hu, fun x hx => hx, fun x hx => Or.inl hx, fun _ => rfl, ?_⟩
    intro h0
    exact absurd h0 (lt_irrefl 0)
  | v :: vs, st, flow, st', r, h, hu, hvs => by
    simp only [dfsScan] at h
    by_cases hg : st.visited v = true ∨ cf st.c st.f u v = 0
    · rw [if_pos hg] at h
      exact dfsScan_post Gf t rec hrec u vs st flow st' r h hu
        fun w hw => hvs w (List.mem_cons_of_mem _ hw)
    · rw [if_neg hg] at h
      push_neg at hg
      obtain ⟨hgv, hgc⟩ := hg
      have hgv' : st.visited v = false := by
        cases hv : st.visited v
        · rfl
        · exact absurd hv hgv
      cases hR : rec st v (min flow (cf st.c st.f u v)) with
      | none => rw [hR] at h; cases h
      | some pr =>
        obtain ⟨st1, cfp⟩ := pr
        rw [hR] at h
        change (if 0 < cfp then some (pushFlowFF st1 u v cfp, cfp)
          else dfsScan rec st1 u flow vs) = some (st', r) at h
        have hpost := hrec st v (min flow (cf st.c st.f u v)) st1 cfp hR
        obtain ⟨hc1, hvv1, hm1, hr1, hf1, hs1⟩ := hpost
        by_cases hpos : 0 < cfp
        · rw [if_pos hpos] at h
          simp only [Option.some.injEq, Prod.mk.injEq] at h
          obtain ⟨rfl, rfl⟩ := h
          obtain ⟨hle, p', hh', hl', hnd', hmem', hch', hf'⟩ := hs1 hpos
          have huv : u ≠ v := fun hc => by rw [hc, hgv'] at hu; cases hu
          -- shape of the returned path
          obtain ⟨rest, rfl⟩ : ∃ rest, p' = v :: rest := by
            cases p' with
            | nil => cases hh'
            | cons a rest =>
              simp only [List.head?_cons, Option.some.injEq] at hh'
              exact ⟨rest, by rw [hh']⟩
          refine ⟨by rw [pushFlowFF_c, hc1], ?_, ?_, ?_, ?_, ?_⟩
          · rw [pushFlowFF_visited]
            exact hm1 u hu
          · intro x hx
            rw [pushFlowFF_visited]
            exact hm1 x hx
          · intro x hx
            rw [pushFlowFF_visited] at hx
            rcases hr1 x hx with hx' | rfl | hx'
            · exact Or.inl hx'
            · exact Or.inr (Or.inr ⟨u, hvs _ (List.mem_cons_self _ _)⟩)
            · exact Or.inr (Or.inr hx')
          · intro h0
            exact absurd hpos (not_lt.mpr h0)
          · intro _
            refine ⟨le_trans hle (min_le_left _ _), u :: v :: rest, rfl, ?_, ?_, ?_, ?_, ?_⟩
            · rw [List.getLast?_cons_cons]
              exact hl'
            · rw [List.nodup_cons]
              refine ⟨?_, hnd'⟩
              intro hmem
              rcases hmem' u hmem with rfl | hx'
              · exact huv rfl
              · rw [hx'] at hu; cases hu
            · intro x hx
              rcases List.mem_cons.mp hx with rfl | hx'
              · exact Or.inl rfl
              · rcases hmem' x hx' with rfl | hx''
                · exact Or.inr hgv'
                · exact Or.inr hx''
            · rw [List.chain'_cons]
              refine ⟨⟨hvs _ (List.mem_cons_self _ _), le_trans hle (min_le_right _ _)⟩, ?_⟩
              exact hch'
            · show (pushFlowFF st1 u v cfp).f = _
              show addM (addM st1.f u v cfp) v u (-cfp) = _
              rw [hf']
              rfl
        · rw [if_neg hpos] at h
          have hf1' := hf1 (not_lt.mp hpos)
          have hu1 : st1.visited u = true := hm1 u hu
          have ih := dfsScan_post Gf t rec hrec u vs st1 flow st' r h hu1
            fun w hw => hvs w (List.mem_cons_of_mem _ hw)
          obtain ⟨ic, ivu, im, ir, ifl, is5⟩ := ih
          refine ⟨ic.trans hc1, ivu, fun x hx => im x (hm1 x hx), ?_, ?_, ?_⟩
          · intro x hx
            rcases ir x hx with hx' | rfl | hx'
            · rcases hr1 x hx' with hx'' | rfl | hx''
              · exact Or.inl hx''
              · exact Or.inr (Or.inr ⟨u, hvs _ (List.mem_cons_self _ _)⟩)
              · exact Or.inr (Or.inr hx'')
            · exact Or.inr (Or.inl rfl)
            · exact Or.inr (Or.inr hx')
          · intro h0
            rw [ifl h0, hf1']
          · intro h0
            obtain ⟨hle, p, hh, hl, hnd, hmem, hch, hf⟩ := is5 h0
            refine ⟨hle, p, hh, hl, hnd, ?_, ?_, ?_⟩
            · intro x hx
              rcases hmem x hx with rfl | hx'
              · exact Or.inl rfl
              · right
                cases hb : st.visited x
                · rfl
                · rw [hm1 x hb] at hx'; cases hx'
            · rw [hc1, hf1'] at hch
              exact hch
            · rw [hf, hf1']

theorem dfs_visit_post (Gf : Nat → List Nat) (t : Nat) :
    ∀ (fuel : Nat) (st : FFSt) (u : Nat) (flow : Int) (st' : FFSt) (r : Int),
      dfs_visit Gf t fuel st u flow = some (st', r) →
      DfsPost Gf t u st flow st' r
  | 0, st, u, flow, st', r, h => by cases h
  | fuel + 1, st, u, flow, st', r, h => by
    simp only [dfs_visit] at h
    by_cases ht : u = t
    · rw [if_pos ht] at h
      simp only [Option.some.injEq, Prod.mk.injEq] at h
      obtain ⟨rfl, rfl⟩ := h
      refine ⟨rfl, by rw [markFF_visited]; simp, ?_, ?_, fun _ => rfl, ?_⟩
      · intro x hx
        rw [markFF_visited]
        by_cases hxu : x = u <;> simp [hxu, hx]
      · intro x hx
        rw [markFF_visited] at hx
        by_cases hxu : x = u
        · exact Or.inr (Or.inl hxu)
        · rw [if_neg hxu] at hx
          exact Or.inl hx
      · intro h0
        refine ⟨le_refl _, [u], rfl, by rw [ht]; rfl, List.nodup_singleton _, ?_, ?_, ?_⟩
        · intro x hx
          rcases List.mem_singleton.mp hx with rfl
          exact Or.inl rfl
        · exact List.chain'_singleton _
        · rfl
    · rw [if_neg ht] at h
      have hpost := dfsScan_post Gf t (dfs_visit Gf t fuel)
        (fun st v fl st' r h => dfs_visit_post Gf t fuel st v fl st' r h) u
        (Gf u) (markFF st u) flow st' r h
        (by rw [markFF_visited]; simp) (fun v hv => hv)
      obtain ⟨hc1, hvu1, hm1, hr1, hf1, hs1⟩ := hpost
      refine ⟨hc1, hvu1, ?_, ?_, hf1, ?_⟩
      · intro x hx
        refine hm1 x ?_
        rw [markFF_visited]
        by_cases hxu : x = u <;> simp [hxu, hx]
      · intro x hx
        rcases hr1 x hx with hx' | rfl | hx'
        · rw [markFF_visited] at hx'
          by_cases hxu : x = u
          · exact Or.inr (Or.inl hxu)
          · rw [if_neg hxu] at hx'
            exact Or.inl hx'
        · exact Or.inr (Or.inl rfl)
        · exact Or.inr (Or.inr hx')
      · intro h0
        obtain ⟨hle, p, hh, hl, hnd, hmem, hch, hf⟩ := hs1 h0
        refine ⟨hle, p, hh, hl, hnd, ?_, hch, hf⟩
        intro x hx
        rcases hmem x hx with rfl | hx'
        · exact Or.inl rfl
        · rw [markFF_visited] at hx'
          by_cases hxu : x = u
          · exact Or.inl hxu
          · rw [if_neg hxu] at hx'
            exact Or.inr hx'

/-! ### DFS fuel sufficiency -/

theorem unvisited_mono (n : Nat) (st st' : FFSt)
    (h : ∀ x, st.visited x = true → st'.visited x = true) :
    ((Finset.range n).filter fun x => st'.visited x = false).card ≤
      ((Finset.range n).filter fun x => st.visited x = false).card := by
  apply Finset.card_le_card
  intro x hx
  rw [Finset.mem_filter] at hx ⊢
  refine ⟨hx.1, ?_⟩
  cases hb : st.visited x
  · rfl
  · rw [h x hb] at hx
    exact absurd hx.2 (by simp)

theorem unvisited_mark (n : Nat) (st : FFSt) (u : Nat)
    (hu : st.visited u = false) (hun : u < n) :
    ((Finset.range n).filter fun x => (markFF st u).visited x = false).card + 1
      = ((Finset.range n).filter fun x => st.visited x = false).card := by
  have hset : ((Finset.range n).filter fun x => (markFF st u).visited x = false)
      = ((Finset.range n).filter fun x => st.visited x = false).erase u := by
    ext x
    rw [Finset.mem_erase, Finset.mem_filter, Finset.mem_filter, markFF_visited]
    by_cases hxu : x = u
    · simp [hxu]
    · simp [hxu]
  rw [hset, Finset.card_erase_of_mem]
  · have hpos : 0 < ((Finset.range n).filter fun x => st.visited x = false).card := by
      apply Finset.card_pos.mpr
      exact ⟨u, Finset.mem_filter.mpr ⟨Finset.mem_range.mpr hun, hu⟩⟩
    omega
  · exact Finset.mem_filter.mpr ⟨Finset.mem_range.mpr hun, hu⟩

theorem dfsScan_isSome (Gf : Nat → List Nat) (t : Nat) (n : Nat) (F : Nat)
    (rec : FFSt → Nat → Int → Option (FFSt × Int))
    (hrec_post : ∀ st v fl st' r, rec st v fl = some (st', r) →
      DfsPost Gf t v st fl st' r)
    (hrec_some : ∀ st v fl, st.visited v = false → v < n →
      ((Finset.range n).filter fun x => st.visited x = false).card ≤ F →
      (rec st v fl).isSome) (u : Nat) :
    ∀ (vs : List Nat) (st : FFSt) (flow : Int),
      (∀ v ∈ vs, v < n) →
      ((Finset.range n).filter fun x => st.visited x = false).card ≤ F →
      (dfsScan rec st u flow vs).isSome
  | [], st, flow, _, _ => by simp [dfsScan]
  | v :: vs, st, flow, hvs, hcard => by
    simp only [dfsScan]
    by_cases hg : st.visited v = true ∨ cf st.c st.f u v = 0
    · rw [if_pos hg]
      exact dfsScan_isSome Gf t n F rec hrec_post hrec_some u vs st flow
        (fun w hw => hvs w (List.mem_cons_of_mem _ hw)) hcard
    · rw [if_neg hg]
      push_neg at hg
      have hgv : st.visited v = false := by
        cases hb : st.visited v
        · rfl
        · exact absurd hb hg.1
      have hsome := hrec_some st v (min flow (cf st.c st.f u v)) hgv
        (hvs v (List.mem_cons_self _ _)) hcard
      cases hR : rec st v (min flow (cf st.c st.f u v)) with
      | none => rw [hR] at hsome; cases hsome
      | some pr =>
        obtain ⟨st1, cfp⟩ := pr
        change (if 0 < cfp then some (pushFlowFF st1 u v cfp, cfp)
          else dfsScan rec st1 u flow vs).isSome = true
        by_cases hpos : 0 < cfp
        · rw [if_pos hpos]; rfl
        · rw [if_neg hpos]
          have hmono := (hrec_post st v _ st1 cfp hR).2.2.1
          exact dfsScan_isSome Gf t n F rec hrec_post hrec_some u vs st1 flow
            (fun w hw => hvs w (List.mem_cons_of_mem _ hw))
            (le_trans (unvisited_mono n st st1 hmono) hcard)

theorem dfs_visit_isSome (Gf : Nat → List Nat) (t n : Nat)
    (hG : ∀ w x, x ∈ Gf w → x < n) :
    ∀ (fuel : Nat) (st : FFSt) (u : Nat) (flow : Int),
      st.visited u = false → u < n →
      ((Finset.range n).filter fun x => st.visited x = false).card ≤ fuel →
      (dfs_visit Gf t fuel st u flow).isSome
  | 0, st, u, flow, hu, hun, hcard => by
    exfalso
    have : 0 < ((Finset.range n).filter fun x => st.visited x = false).card :=
      Finset.card_pos.mpr
        ⟨u, Finset.mem_filter.mpr ⟨Finset.mem_range.mpr hun, hu⟩⟩
    omega
  | fuel + 1, st, u, flow, hu, hun, hcard => by
    simp only [dfs_visit]
    by_cases ht : u = t
    · rw [if_pos ht]; rfl
    · rw [if_neg ht]
      have hcard' := unvisited_mark n st u hu hun
      exact dfsScan_isSome Gf t n fuel (dfs_visit Gf t fuel)
        (fun st v fl st' r h => dfs_visit_post Gf t fuel st v fl st' r h)
        (fun st v fl hv hvn hc =>
          dfs_visit_isSome Gf t n hG fuel st v fl hv hvn hc)
        u (Gf u) (markFF st u) flow (fun w hw => hG u w hw) (by omega)

theorem ffDfs_isSome (Gf : Nat → List Nat) (t n : Nat)
    (hG : ∀ w x, x ∈ Gf w → x < n) (st : FFSt) (u : Nat) (hun : u < n) :
    (ffDfs Gf t (n + 1) st u).isSome := by
  apply dfs_visit_isSome Gf t n hG (n + 1) _ u inf rfl hun
  calc ((Finset.range n).filter fun x =>
      (FFSt.mk st.c st.f fun _ => false).visited x = false).card
      ≤ (Finset.range n).card := Finset.card_filter_le _ _
    _ ≤ n + 1 := by rw [Finset.card_range]; omega

/-! ### DFS failure closes the residual reachable set -/

theorem dfsScan_closed (Gf : Nat → List Nat) (t : Nat)
    (rec : FFSt → Nat → Int → Option (FFSt × Int))
    (hrec_post : ∀ st v fl st' r, rec st v fl = some (st', r) →
      DfsPost Gf t v st fl st' r)
    (hrec_closed : ∀ st v fl st' r, rec st v fl = some (st', r) → 0 < fl →
      ¬0 < r → (∀ x y, 0 ≤ cf st.c st.f x y) →
      ∀ x, st'.visited x = true → st.visited x = true ∨
        (x ≠ t ∧ ∀ y, y ∈ Gf x → cf st'.c st'.f x y ≠ 0 →
          st'.visited y = true))
    (u : Nat) (hut : u ≠ t) :
    ∀ (vs : List Nat) (st : FFSt) (flow : Int) (st' : FFSt) (r : Int)
      (base : FFSt),
      dfsScan rec st u flow vs = some (st', r) → 0 < flow → ¬0 < r →
      (∀ x y, 0 ≤ cf st.c st.f x y) →
      st.visited u = true →
      (∀ v ∈ vs, v ∈ Gf u) →
      (∀ y, y ∈ Gf u → y ∉ vs → cf st.c st.f u y ≠ 0 →
        st.visited y = true) →
      (∀ x, st.visited x = true → base.visited x = true ∨ x = u ∨
        (x ≠ t ∧ ∀ y, y ∈ Gf x → cf st.c st.f x y ≠ 0 →
          st.visited y = true)) →
      (∀ x, st'.visited x = true → base.visited x = true ∨
        (x ≠ t ∧ ∀ y, y ∈ Gf x → cf st'.c st'.f x y ≠ 0 →
          st'.visited y = true))
  | [], st, flow, st', r, base, h, _, _, _, _, _, hcov, hbase => by
    simp only [dfsScan, Option.some.injEq, Prod.mk.injEq] at h
    obtain ⟨rfl, rfl⟩ := h
    intro x hx
    rcases hbase x hx with hb | rfl | hcl
    · exact Or.inl hb
    · exact Or.inr ⟨hut, fun y hy hcf => hcov y hy (List.not_mem_nil y) hcf⟩
    · exact Or.inr hcl
  | v :: vs, st, flow, st', r, base, h, hflow, hr, hnn, hu, hvs, hcov, hbase => by
    simp only [dfsScan] at h
    by_cases hg : st.visited v = true ∨ cf st.c st.f u v = 0
    · rw [if_pos hg] at h
      refine dfsScan_closed Gf t rec hrec_post hrec_closed u hut vs st flow
        st' r base h hflow hr hnn hu
        (fun w hw => hvs w (List.mem_cons_of_mem _ hw)) ?_ hbase
      intro y hy hyvs hcf
      by_cases hyv : y = v
      · subst hyv
        rcases hg with hg | hg
        · exact hg
        · exact absurd hg hcf
      · exact hcov y hy (fun hc => (List.mem_cons.mp hc).elim hyv hyvs) hcf
    · rw [if_neg hg] at h
      push_neg at hg
      have hgv : st.visited v = false := by
        cases hb : st.visited v
        · rfl
        · exact absurd hb hg.1
      cases hR : rec st v (min flow (cf st.c st.f u v)) with
      | none => rw [hR] at h; cases h
      | some pr =>
        obtain ⟨st1, cfp⟩ := pr
        rw [hR] at h
        change (if 0 < cfp then some (pushFlowFF st1 u v cfp, cfp)
          else dfsScan rec st1 u flow vs) = some (st', r) at h
        by_cases hpos : 0 < cfp
        · rw [if_pos hpos] at h
          simp only [Option.some.injEq, Prod.mk.injEq] at h
          exact absurd (h.2 ▸ hpos) hr
        · rw [if_neg hpos] at h
          obtain ⟨hc1, hvv1, hm1, _, hf1, _⟩ :=
            hrec_post st v (min flow (cf st.c st.f u v)) st1 cfp hR
          have hf1' : st1.f = st.f := hf1 (not_lt.mp hpos)
          have hminpos : 0 < min flow (cf st.c st.f u v) :=
            lt_min hflow (lt_of_le_of_ne (hnn u v) (Ne.symm hg.2))
          have hNC := hrec_closed st v _ st1 cfp hR hminpos hpos hnn
          have hcf_eq : ∀ x y, cf st1.c st1.f x y = cf st.c st.f x y := by
            intro x y
            rw [hc1, hf1']
          refine dfsScan_closed Gf t rec hrec_post hrec_closed u hut vs st1
            flow st' r base h hflow hr
            (fun x y => (hcf_eq x y).symm ▸ hnn x y) (hm1 u hu)
            (fun w hw => hvs w (List.mem_cons_of_mem _ hw)) ?_ ?_
          · intro y hy hyvs hcf
            rw [hcf_eq] at hcf
            by_cases hyv : y = v
            · subst hyv
              exact hvv1
            · exact hm1 y (hcov y hy
                (fun hc => (List.mem_cons.mp hc).elim hyv hyvs) hcf)
          · intro x hx
            rcases hNC x hx with hold | hnew
            · rcases hbase x hold with hb | rfl | hcl
              · exact Or.inl hb
              · exact Or.inr (Or.inl rfl)
              · refine Or.inr (Or.inr ⟨hcl.1, fun y hy hcf => ?_⟩)
                rw [hcf_eq] at hcf
                exact hm1 y (hcl.2 y hy hcf)
            · exact Or.inr (Or.inr hnew)

theorem dfs_visit_closed (Gf : Nat → List Nat) (t : Nat) :
    ∀ (fuel : Nat) (st : FFSt) (u : Nat) (fl : Int) (st' : FFSt) (r : Int),
      dfs_visit Gf t fuel st u fl = some (st', r) → 0 < fl → ¬0 < r →
      (∀ x y, 0 ≤ cf st.c st.f x y) →
      ∀ x, st'.visited x = true → st.visited x = true ∨
        (x ≠ t ∧ ∀ y, y ∈ Gf x → cf st'.c st'.f x y ≠ 0 →
          st'.visited y = true)
  | 0, st, u, fl, st', r, h, _, _, _ => by cases h
  | fuel + 1, st, u, fl, st', r, h, hfl, hr, hnn => by
    simp only [dfs_visit] at h
    by_cases ht : u = t
    · rw [if_pos ht] at h
      simp only [Option.some.injEq, Prod.mk.injEq] at h
      exact absurd (h.2 ▸ hfl) hr
    · rw [if_neg ht] at h
      intro x hx
      have := dfsScan_closed Gf t (dfs_visit Gf t fuel)
        (fun st v fl st' r h => dfs_visit_post Gf t fuel st v fl st' r h)
        (fun st v fl st' r h h1 h2 h3 =>
          dfs_visit_closed Gf t fuel st v fl st' r h h1 h2 h3)
        u ht (Gf u) (markFF st u) fl st' r st h hfl hr hnn
        (by rw [markFF_visited]; simp) (fun v hv => hv)
        (fun y hy hyn _ => absurd hy hyn) ?_ x hx
      · exact this
      · intro z hz
        rw [markFF_visited] at hz
        by_cases hzu : z = u
        · exact Or.inr (Or.inl hzu)
        · rw [if_neg hzu] at hz
          exact Or.inl hz

/-! ### One augmentation preserves the invariants -/

theorem mem_head_or_edge : ∀ (p : List Nat) (x : Nat), x ∈ p →
    p.head? = some x ∨ ∃ a, (a, x) ∈ pathEdges p
  | [], x, hx => absurd hx (List.not_mem_nil x)
  | [a], x, hx => by
    rcases List.mem_singleton.mp hx with rfl
    exact Or.inl rfl
  | a :: b :: rest, x, hx => by
    rcases List.mem_cons.mp hx with rfl | hx'
    · exact Or.inl rfl
    · rcases mem_head_or_edge (b :: rest) x hx' with hh | ⟨w, hw⟩
      · simp only [List.head?_cons, Option.some.injEq] at hh
        exact Or.inr ⟨a, by rw [pathEdges_cons₂, hh]; exact List.mem_cons_self _ _⟩
      · exact Or.inr ⟨w, by rw [pathEdges_cons₂]; exact List.mem_cons_of_mem _ hw⟩

theorem augment_preserves (n s t : Nat) (Gf : Nat → List Nat)
    (hGsym : ∀ w x, x ∈ Gf w → w ∈ Gf x) (c f : Mat) (r : Int) (p : List Nat)
    (hap : AugPathOK Gf c f s t r p) (hrange : ∀ x ∈ p, x < n) (hst : s ≠ t)
    (hfeas : Feasible Gf c f) (hcons : Conserved n s t f) :
    Feasible Gf c (augmentPath f r p) ∧
    Conserved n s t (augmentPath f r p) ∧
    exc n (augmentPath f r p) s = exc n f s + r ∧
    exc n (augmentPath f r p) t = exc n f t - r := by
  obtain ⟨hskew, hle, hsupp⟩ := hfeas
  have hcfp : ∀ a b, (a, b) ∈ pathEdges p → r ≤ cf c f a b := fun a b hm =>
    (chain'_rel_of_mem_pathEdges p hap.chain a b hm).2
  have hadj : ∀ a b, (a, b) ∈ pathEdges p → b ∈ Gf a ∧ a ∈ Gf b := by
    intro a b hm
    have h1 := (chain'_rel_of_mem_pathEdges p hap.chain a b hm).1
    exact ⟨h1, hGsym a b h1⟩
  have hexc := exc_augmentPath n f r p hrange
  have hts : ¬ (p.getLast? = some s) := by
    intro hc
    rw [hap.last] at hc
    exact hst (Option.some.injEq .. ▸ hc).symm
  have hht : ¬ (p.head? = some t) := by
    intro hc
    rw [hap.head] at hc
    exact hst (Option.some.injEq .. ▸ hc)
  refine ⟨⟨fun u v => augmentPath_skew f r p hskew u v, ?_, ?_⟩, ?_, ?_, ?_⟩
  · exact fun u v => augmentPath_le_c c f r p hap.nodup hle
      (le_of_lt hap.pos) hcfp u v
  · exact fun u v hv => augmentPath_support Gf f r p hadj hsupp u v hv
  · intro v hvn hvs hvt
    rw [hexc v]
    have h1 : ¬ (p.head? = some v) := by
      rw [hap.head]
      intro hc
      exact hvs (Option.some.injEq .. ▸ hc).symm
    have h2 : ¬ (p.getLast? = some v) := by
      rw [hap.last]
      intro hc
      exact hvt (Option.some.injEq .. ▸ hc).symm
    rw [if_neg h1, if_neg h2, hcons v hvn hvs hvt]
    ring
  · rw [hexc s, if_pos hap.head, if_neg hts]
    ring
  · rw [hexc t, if_neg hht, if_pos hap.last]
    ring

/-! ### Ford-Fulkerson: one loop iteration -/

theorem ffDfs_step (n s t : Nat) (Gf : Nat → List Nat)
    (hGr : ∀ w x, x ∈ Gf w → x < n) (st st' : FFSt) (aug : Int)
    (h : ffDfs Gf t (n + 1) st s = some (st', aug)) (ha : 0 < aug)
    (hs : s < n) :
    st'.c = st.c ∧
    ∃ p, AugPathOK Gf st.c st.f s t aug p ∧ (∀ x ∈ p, x < n) ∧
      st'.f = augmentPath st.f aug p := by
  have hpost := dfs_visit_post Gf t (n + 1) _ s inf st' aug h
  obtain ⟨hc, _, _, _, _, hs5⟩ := hpost
  obtain ⟨hle, p, hh, hl, hnd, _, hch, hf⟩ := hs5 ha
  refine ⟨hc, p, ⟨hh, hl, hnd, hch, ha⟩, ?_, hf⟩
  intro x hx
  rcases mem_head_or_edge p x hx with hhd | ⟨a, ha'⟩
  · rw [hh] at hhd
    injection hhd with hsx
    exact hsx ▸ hs
  · exact hGr a x (chain'_rel_of_mem_pathEdges p hch a x ha').1

/-! ### Ford-Fulkerson: failed search closes the residual network -/

theorem dfs_fail_noreach (Gf : Nat → List Nat) (t : Nat) (fuel : Nat)
    (st st1 : FFSt) (s : Nat) (aug : Int)
    (h : ffDfs Gf t fuel st s = some (st1, aug)) (hr : ¬0 < aug)
    (hnn : ∀ x y, 0 ≤ cf st.c st.f x y)
    (hsupp : ∀ u v, v ∉ Gf u → st.f u v = 0)
    (hcadj : ∀ u v, st.c u v ≠ 0 → v ∈ Gf u) :
    st1.f = st.f ∧ st1.c = st.c ∧ ¬ Reach st1.c st1.f s t := by
  have hpost := dfs_visit_post Gf t fuel _ s inf st1 aug h
  obtain ⟨hc, hvs, _, _, hf, _⟩ := hpost
  have hf' : st1.f = st.f := hf (not_lt.mp hr)
  have hinf : (0 : Int) < inf := by norm_num [inf]
  have hclosed := dfs_visit_closed Gf t fuel _ s inf st1 aug h hinf hr hnn
  refine ⟨hf', hc, ?_⟩
  have hvisit : ∀ x, Reach st1.c st1.f s x → st1.visited x = true := by
    intro x hreach
    induction hreach with
    | refl => exact hvs
    | @tail b c' hsb hbc ih =>
      rcases hclosed b ih with hold | ⟨_, hcl⟩
      · cases hold
      · have hadj : c' ∈ Gf b := by
          by_contra hnadj
          have hfz : st.f b c' = 0 := hsupp b c' hnadj
          have hcz : st.c b c' = 0 := by
            by_contra hcnz
            exact hnadj (hcadj b c' hcnz)
          have : cf st1.c st1.f b c' = 0 := by
            rw [hc, hf']
            unfold cf
            rw [hfz, hcz]
            ring
          rw [this] at hbc
          exact absurd hbc (lt_irrefl 0)
        exact hcl c' hadj (ne_of_gt hbc)
  intro hreach
  rcases hclosed t (hvisit t hreach) with hold | ⟨hne, _⟩
  · cases hold
  · exact hne rfl

/-! ### Ford-Fulkerson: the search-and-augment loop -/

theorem exc_le_rowcap (n s : Nat) (Gf : Nat → List Nat) (c f : Mat)
    (hfeas : Feasible Gf c f) :
    exc n f s ≤ ∑ v ∈ Finset.range n, max (c s v) 0 :=
  Finset.sum_le_sum fun v _ => le_trans (hfeas.2.1 s v) (le_max_left _ _)

theorem ffLoop_spec (n s t : Nat) (Gf : Nat → List Nat)
    (hGr : ∀ w x, x ∈ Gf w → x < n) (hGsym : ∀ w x, x ∈ Gf w → w ∈ Gf x)
    (hs : s < n) (hst : s ≠ t) :
    ∀ (fuel : Nat) (st : FFSt) (flow v : Int) (st' : FFSt),
      ffLoop Gf n t fuel st s flow = some (v, st') →
      Feasible Gf st.c st.f → Conserved n s t st.f →
      (∀ u w, st.c u w ≠ 0 → w ∈ Gf u) →
      st'.c = st.c ∧ Feasible Gf st'.c st'.f ∧ Conserved n s t st'.f ∧
      exc n st'.f s = exc n st.f s + (v - flow) ∧
      exc n st'.f t = exc n st.f t - (v - flow) ∧
      ¬ Reach st'.c st'.f s t
  | 0, st, flow, v, st', h, _, _, _ => by cases h
  | fuel + 1, st, flow, v, st', h, hfeas, hcons, hcadj => by
    simp only [ffLoop] at h
    cases hD : ffDfs Gf t (n + 1) st s with
    | none => rw [hD] at h; cases h
    | some pr =>
      obtain ⟨st1, aug⟩ := pr
      rw [hD] at h
      change (if 0 < aug then ffLoop Gf n t fuel st1 s (flow + aug)
        else some (flow, st1)) = some (v, st') at h
      by_cases hpos : 0 < aug
      · rw [if_pos hpos] at h
        obtain ⟨hc1, p, hap, hrange, hf1⟩ :=
          ffDfs_step n s t Gf hGr st st1 aug hD hpos hs
        obtain ⟨hfeas1, hcons1, hexcs1, hexct1⟩ :=
          augment_preserves n s t Gf hGsym st.c st.f aug p hap hrange hst
            hfeas hcons
        have hfeas1' : Feasible Gf st1.c st1.f := by
          rw [hc1, hf1]; exact hfeas1
        have hcons1' : Conserved n s t st1.f := by
          rw [hf1]; exact hcons1
        have hcadj1 : ∀ u w, st1.c u w ≠ 0 → w ∈ Gf u := by
          rw [hc1]; exact hcadj
        obtain ⟨ic, ifeas, icons, iexcs, iexct, ireach⟩ :=
          ffLoop_spec n s t Gf hGr hGsym hs hst fuel st1 (flow + aug) v st'
            h hfeas1' hcons1' hcadj1
        refine ⟨ic.trans hc1, ifeas, icons, ?_, ?_, ireach⟩
        · rw [iexcs, hf1, hexcs1]; ring
        · rw [iexct, hf1, hexct1]; ring
      · rw [if_neg hpos] at h
        simp only [Option.some.injEq, Prod.mk.injEq] at h
        obtain ⟨rfl, rfl⟩ := h
        have hnn : ∀ x y, 0 ≤ cf st.c st.f x y := by
          intro x y
          unfold cf
          have := hfeas.2.1 x y
          linarith
        obtain ⟨hf1, hc1, hreach⟩ :=
          dfs_fail_noreach Gf t (n + 1) st st1 s aug hD hpos hnn
            hfeas.2.2 hcadj
        refine ⟨hc1, ?_, ?_, ?_, ?_, hreach⟩
        · rw [hc1, hf1]; exact hfeas
        · rw [hf1]; exact hcons
        · rw [hf1]; ring
        · rw [hf1]; ring

theorem ffLoop_isSome (n s t : Nat) (Gf : Nat → List Nat)
    (hGr : ∀ w x, x ∈ Gf w → x < n) (hGsym : ∀ w x, x ∈ Gf w → w ∈ Gf x)
    (hs : s < n) (hst : s ≠ t) (B : Int) :
    ∀ (fuel : Nat) (st : FFSt) (flow : Int),
      Feasible Gf st.c st.f → Conserved n s t st.f →
      (∑ v ∈ Finset.range n, max (st.c s v) 0) ≤ B →
      B < exc n st.f s + fuel →
      (ffLoop Gf n t fuel st s flow).isSome
  | 0, st, flow, hfeas, _, hB, hfuel => by
    exfalso
    have := exc_le_rowcap n s Gf st.c st.f hfeas
    simp only [Nat.cast_zero, add_zero] at hfuel
    linarith
  | fuel + 1, st, flow, hfeas, hcons, hB, hfuel => by
    simp only [ffLoop]
    have hD := ffDfs_isSome Gf t n hGr st s hs
    cases hDe : ffDfs Gf t (n + 1) st s with
    | none => rw [hDe] at hD; cases hD
    | some pr =>
      obtain ⟨st1, aug⟩ := pr
      change (if 0 < aug then ffLoop Gf n t fuel st1 s (flow + aug)
        else some (flow, st1)).isSome = true
      by_cases hpos : 0 < aug
      · rw [if_pos hpos]
        obtain ⟨hc1, p, hap, hrange, hf1⟩ :=
          ffDfs_step n s t Gf hGr st st1 aug hDe hpos hs
        obtain ⟨hfeas1, hcons1, hexcs1, _⟩ :=
          augment_preserves n s t Gf hGsym st.c st.f aug p hap hrange hst
            hfeas hcons
        refine ffLoop_isSome n s t Gf hGr hGsym hs hst B fuel st1 (flow + aug)
          ?_ ?_ ?_ ?_
        · rw [hc1, hf1]; exact hfeas1
        · rw [hf1]; exact hcons1
        · rw [hc1]; exact hB
        · rw [hf1, hexcs1]
          omega
      · rw [if_neg hpos]
        rfl

/-! ### Edmonds-Karp: the BFS scan -/

theorem bfsScan_spec : ∀ (vs : List Nat) (st : EKSt) (u : Nat) (q : List Nat)
    (st' : EKSt) (q' : List Nat), bfsScan st u q vs = (st', q') →
    st'.c = st.c ∧
    st'.f = st.f ∧
    (∀ x, st.visited x = true → st'.visited x = true) ∧
    (∀ x, st'.visited x = true → st.visited x = true ∨
      (x ∈ vs ∧ st.visited x = false ∧ st'.pi x = (u : Int) ∧
        cf st.c st.f u x ≠ 0)) ∧
    (∀ x, st.visited x = true → st'.pi x = st.pi x) ∧
    (∀ x ∈ q, x ∈ q') ∧
    (∀ x ∈ q', x ∈ q ∨ st'.visited x = true) ∧
    (∀ y ∈ vs, cf st.c st.f u y ≠ 0 → st'.visited y = true) ∧
    (∀ x, st'.visited x = true → st.visited x = true ∨ x ∈ q')
  | [], st, u, q, st', q', h => by
    simp only [bfsScan, Prod.mk.injEq] at h
    obtain ⟨rfl, rfl⟩ := h
    exact ⟨rfl, rfl, fun x hx => hx, fun x hx => Or.inl hx, fun x _ => rfl,
      fun x hx => hx, fun x hx => Or.inl hx,
      fun y hy => absurd hy (List.not_mem_nil y), fun x hx => Or.inl hx⟩
  | v :: vs, st, u, q, st', q', h => by
    simp only [bfsScan] at h
    by_cases hg : st.visited v = true ∨ cf st.c st.f u v = 0
    · rw [if_pos hg] at h
      obtain ⟨hc, hf, hm, hnew, hpi, hq1, hq2, hcov, hq3⟩ :=
        bfsScan_spec vs st u q st' q' h
      refine ⟨hc, hf, hm, ?_, hpi, hq1, hq2, ?_, hq3⟩
      · intro x hx
        rcases hnew x hx with hx' | ⟨h1, h2, h3, h4⟩
        · exact Or.inl hx'
        · exact Or.inr ⟨List.mem_cons_of_mem _ h1, h2, h3, h4⟩
      · intro y hy hcf
        rcases List.mem_cons.mp hy with rfl | hy'
        · rcases hg with hg | hg
          · exact hm y hg
          · exact absurd hg hcf
        · exact hcov y hy' hcf
    · rw [if_neg hg] at h
      push_neg at hg
      have hgv : st.visited v = false := by
        cases hb : st.visited v
        · rfl
        · exact absurd hb hg.1
      set stm : EKSt :=
        { st with
          visited := fun x => if x = v then true else st.visited x
          pi := fun x => if x = v then (u : Int) else st.pi x } with hstm
      obtain ⟨hc, hf, hm, hnew, hpi, hq1, hq2, hcov, hq3⟩ :=
        bfsScan_spec vs stm u (q ++ [v]) st' q' h
      have hmv : st'.visited v = true := hm v (by simp [hstm])
      have hpiv : st'.pi v = (u : Int) := by
        rw [hpi v (by simp [hstm])]
        simp [hstm]
      refine ⟨hc, hf, ?_, ?_, ?_, ?_, ?_, ?_, ?_⟩
      · intro x hx
        refine hm x ?_
        by_cases hxv : x = v <;> simp [hstm, hxv, hx]
      · intro x hx
        rcases hnew x hx with hx' | ⟨h1, h2, h3, h4⟩
        · by_cases hxv : x = v
          · subst hxv
            exact Or.inr ⟨List.mem_cons_self _ _, hgv, hpiv, hg.2⟩
          · simp only [hstm] at hx'
            rw [if_neg hxv] at hx'
            exact Or.inl hx'
        · simp only [hstm] at h2
          by_cases hxv : x = v
          · rw [if_pos hxv] at h2; cases h2
          · rw [if_neg hxv] at h2
            exact Or.inr ⟨List.mem_cons_of_mem _ h1, h2, h3, h4⟩
      · intro x hx
        have hxv : x ≠ v := by
          intro hc'
          rw [hc', hgv] at hx
          cases hx
        rw [hpi x (by simp [hstm, hxv, hx])]
        simp [hstm, hxv]
      · intro x hx
        exact hq1 x (List.mem_append_left _ hx)
      · intro x hx
        rcases hq2 x hx with hx' | hx'
        · rcases List.mem_append.mp hx' with hx'' | hx''
          · exact Or.inl hx''
          · rcases List.mem_singleton.mp hx'' with rfl
            exact Or.inr hmv
        · exact Or.inr hx'
      · intro y hy hcf
        rcases List.mem_cons.mp hy with rfl | hy'
        · exact hmv
        · exact hcov y hy' (by simpa [hstm] using hcf)
      · intro x hx
        rcases hq3 x hx with hx' | hx'
        · by_cases hxv : x = v
          · subst hxv
            exact Or.inr (hq1 x (List.mem_append_right _
              (List.mem_singleton_self x)))
          · simp only [hstm] at hx'
            rw [if_neg hxv] at hx'
            exact Or.inl hx'
        · exact Or.inr hx'

/-! ### Edmonds-Karp: BFS terminates within fuel `2 * n` -/

theorem unvisited_mono_fun (n : Nat) (g g' : Nat → Bool)
    (h : ∀ x, g x = true → g' x = true) :
    ((Finset.range n).filter fun x => g' x = false).card ≤
      ((Finset.range n).filter fun x => g x = false).card := by
  apply Finset.card_le_card
  intro x hx
  rw [Finset.mem_filter] at hx ⊢
  refine ⟨hx.1, ?_⟩
  cases hb : g x
  · rfl
  · rw [h x hb] at hx
    exact absurd hx.2 (by simp)

theorem bfsScan_card (n : Nat) :
    ∀ (vs : List Nat) (st : EKSt) (u : Nat) (q : List Nat) (st' : EKSt)
      (q' : List Nat), bfsScan st u q vs = (st', q') →
      (∀ v ∈ vs, v < n) →
      2 * ((Finset.range n).filter fun x => st'.visited x = false).card
          + q'.length ≤
        2 * ((Finset.range n).filter fun x => st.visited x = false).card
          + q.length
  | [], st, u, q, st', q', h, _ => by
    simp only [bfsScan, Prod.mk.injEq] at h
    obtain ⟨rfl, rfl⟩ := h
    exact le_refl _
  | v :: vs, st, u, q, st', q', h, hvs => by
    simp only [bfsScan] at h
    by_cases hg : st.visited v = true ∨ cf st.c st.f u v = 0
    · rw [if_pos hg] at h
      exact bfsScan_card n vs st u q st' q' h
        fun w hw => hvs w (List.mem_cons_of_mem _ hw)
    · rw [if_neg hg] at h
      push_neg at hg
      have hgv : st.visited v = false := by
        cases hb : st.visited v
        · rfl
        · exact absurd hb hg.1
      have hrec := bfsScan_card n vs _ u (q ++ [v]) st' q' h
        fun w hw => hvs w (List.mem_cons_of_mem _ hw)
      have hproj : ({ st with
          visited := fun x => if x = v then true else st.visited x
          pi := fun x => if x = v then (u : Int) else st.pi x } : EKSt).visited
          = fun x => if x = v then true else st.visited x := rfl
      simp only [hproj] at hrec
      have hmark : ((Finset.range n).filter fun x =>
          (if x = v then true else st.visited x) = false).card + 1
          = ((Finset.range n).filter fun x => st.visited x = false).card := by
      -- same computation as `unvisited_mark`, on the raw visited function
        have hset : ((Finset.range n).filter fun x =>
            (if x = v then true else st.visited x) = false)
            = ((Finset.range n).filter fun x => st.visited x = false).erase v := by
          ext x
          rw [Finset.mem_erase, Finset.mem_filter, Finset.mem_filter]
          by_cases hxv : x = v
          · simp [hxv]
          · simp [hxv]
        rw [hset, Finset.card_erase_of_mem]
        · have hpos : 0 < ((Finset.range n).filter fun x =>
              st.visited x = false).card := by
            apply Finset.card_pos.mpr
            exact ⟨v, Finset.mem_filter.mpr
              ⟨Finset.mem_range.mpr (hvs v (List.mem_cons_self _ _)), hgv⟩⟩
          omega
        · exact Finset.mem_filter.mpr
            ⟨Finset.mem_range.mpr (hvs v (List.mem_cons_self _ _)), hgv⟩
      rw [List.length_append, List.length_singleton] at hrec
      omega

theorem bfsLoop_isSome (Gf : Nat → List Nat) (n : Nat)
    (hG : ∀ w x, x ∈ Gf w → x < n) :
    ∀ (fuel : Nat) (st : EKSt) (q : List Nat),
      2 * ((Finset.range n).filter fun x => st.visited x = false).card
          + q.length ≤ fuel →
      (bfsLoop Gf fuel st q).isSome
  | fuel, st, [], _ => by cases fuel <;> simp [bfsLoop]
  | 0, st, u :: q, hfuel => by
    exfalso
    simp only [List.length_cons] at hfuel
    omega
  | fuel + 1, st, u :: q, hfuel => by
    simp only [bfsLoop]
    cases hscan : bfsScan st u q (Gf u) with
    | mk st1 q1 =>
      have hcard := bfsScan_card n (Gf u) st u q st1 q1 hscan
        fun w hw => hG u w hw
      simp only [List.length_cons] at hfuel
      exact bfsLoop_isSome Gf n hG fuel st1 q1 (by omega)

/-! ### Edmonds-Karp: the BFS loop invariant -/

theorem piChain_stable (Gf : Nat → List Nat) (c f : Mat)
    (piOld piNew : Nat → Int) (W : Nat → Bool) :
    ∀ p : List Nat, (∀ y ∈ p, W y = true) →
      (∀ y, W y = true → piNew y = piOld y) →
      List.Chain' (fun a b => piOld a = (b : Int) ∧ a ∈ Gf b ∧
        0 < cf c f b a) p →
      List.Chain' (fun a b => piNew a = (b : Int) ∧ a ∈ Gf b ∧
        0 < cf c f b a) p
  | [], _, _, _ => List.chain'_nil
  | [a], _, _, _ => List.chain'_singleton a
  | a :: b :: rest, hmem, hpi, hch => by
    rw [List.chain'_cons] at hch ⊢
    refine ⟨⟨?_, hch.1.2⟩, ?_⟩
    · rw [hpi a (hmem a (List.mem_cons_self _ _))]
      exact hch.1.1
    · exact piChain_stable Gf c f piOld piNew W (b :: rest)
        (fun y hy => hmem y (List.mem_cons_of_mem _ hy)) hpi hch.2

theorem bfsLoop_spec (Gf : Nat → List Nat) (n s : Nat) (c0 f0 : Mat)
    (hnn : ∀ x y, 0 ≤ cf c0 f0 x y) :
    ∀ (fuel : Nat) (st : EKSt) (q : List Nat) (st' : EKSt),
      bfsLoop Gf fuel st q = some st' →
      st.c = c0 → st.f = f0 →
      (∀ x ∈ q, st.visited x = true) →
      (∀ x, st.visited x = true → x ∈ q ∨
        ∀ y, y ∈ Gf x → cf c0 f0 x y ≠ 0 → st.visited y = true) →
      (∀ x, st.visited x = true → Reach c0 f0 s x) →
      (∀ x, st.visited x = true → ∃ p, PiChain Gf c0 f0 st.pi s x p ∧
        ∀ y ∈ p, st.visited y = true) →
      st'.c = c0 ∧ st'.f = f0 ∧
      (∀ x, st.visited x = true → st'.visited x = true) ∧
      (∀ x, st'.visited x = true →
        ∀ y, y ∈ Gf x → cf c0 f0 x y ≠ 0 → st'.visited y = true) ∧
      (∀ x, st'.visited x = true → Reach c0 f0 s x) ∧
      (∀ x, st'.visited x = true → ∃ p, PiChain Gf c0 f0 st'.pi s x p ∧
        ∀ y ∈ p, st'.visited y = true)
  | fuel, st, [], st', h, hc, hf, _, hclosed, hreach, hchain => by
    have hst : st' = st := by
      cases fuel <;> simp only [bfsLoop, Option.some.injEq] at h <;> exact h.symm
    subst hst
    refine ⟨hc, hf, fun x hx => hx, ?_, hreach, hchain⟩
    intro x hx y hy hcf
    rcases hclosed x hx with hq | hcl
    · exact absurd hq (List.not_mem_nil x)
    · exact hcl y hy hcf
  | 0, st, u :: q, st', h, _, _, _, _, _, _ => by cases h
  | fuel + 1, st, u :: q, st', h, hc, hf, hque, hclosed, hreach, hchain => by
    simp only [bfsLoop] at h
    cases hscan : bfsScan st u q (Gf u) with
    | mk st1 q1 =>
      rw [hscan] at h
      obtain ⟨sc, sf, sm, snew, spi, sq1, sq2, scov, sq3⟩ :=
        bfsScan_spec (Gf u) st u q st1 q1 hscan
      have hvu : st.visited u = true := hque u (List.mem_cons_self _ _)
      have hcf1 : st1.c = c0 := sc.trans hc
      have hff1 : st1.f = f0 := sf.trans hf
      -- the scanned conditions are about st.c/st.f; rewrite them to c0/f0
      have hcfeq : ∀ a b, cf st.c st.f a b = cf c0 f0 a b := by
        intro a b
        rw [hc, hf]
      have hA : ∀ x ∈ q1, st1.visited x = true := by
        intro x hx
        rcases sq2 x hx with hx' | hx'
        · exact sm x (hque x (List.mem_cons_of_mem _ hx'))
        · exact hx'
      have hB : ∀ x, st1.visited x = true → x ∈ q1 ∨
          ∀ y, y ∈ Gf x → cf c0 f0 x y ≠ 0 → st1.visited y = true := by
        intro x hx
        rcases snew x hx with hold | ⟨hxGfu, hfresh, hpix, hcfux⟩
        · rcases hclosed x hold with hq | hcl
          · rcases List.mem_cons.mp hq with rfl | hq'
            · refine Or.inr fun y hy hcf => ?_
              exact scov y hy (by rw [hcfeq]; exact hcf)
            · exact Or.inl (sq1 x hq')
          · exact Or.inr fun y hy hcf => sm y (hcl y hy hcf)
        · rcases sq3 x hx with hold' | hq1'
          · rw [hold'] at hfresh; cases hfresh
          · exact Or.inl hq1'
      have hC : ∀ x, st1.visited x = true → Reach c0 f0 s x := by
        intro x hx
        rcases snew x hx with hold | ⟨hxGfu, hfresh, hpix, hcfux⟩
        · exact hreach x hold
        · refine Relation.ReflTransGen.tail (hreach u hvu) ?_
          rw [hcfeq] at hcfux
          exact lt_of_le_of_ne (hnn u x) (Ne.symm hcfux)
      have hD : ∀ x, st1.visited x = true →
          ∃ p, PiChain Gf c0 f0 st1.pi s x p ∧
            ∀ y ∈ p, st1.visited y = true := by
        intro x hx
        rcases snew x hx with hold | ⟨hxGfu, hfresh, hpix, hcfux⟩
        · obtain ⟨p, ⟨hh, hl, hnd, hch⟩, hmem⟩ := hchain x hold
          refine ⟨p, ⟨hh, hl, hnd, ?_⟩, fun y hy => sm y (hmem y hy)⟩
          exact piChain_stable Gf c0 f0 st.pi st1.pi st.visited p hmem spi hch
        · obtain ⟨pu, ⟨hh, hl, hnd, hch⟩, hmem⟩ := hchain u hvu
          obtain ⟨rest, rfl⟩ : ∃ rest, pu = u :: rest := by
            cases pu with
            | nil => cases hh
            | cons a rest =>
              simp only [List.head?_cons, Option.some.injEq] at hh
              exact ⟨rest, by rw [hh]⟩
          have hxnot : x ∉ u :: rest := by
            intro hc'
            rw [hmem x hc'] at hfresh
            cases hfresh
          refine ⟨x :: u :: rest, ⟨rfl, ?_, ?_, ?_⟩, ?_⟩
          · rw [List.getLast?_cons_cons]
            exact hl
          · exact List.nodup_cons.mpr ⟨hxnot, hnd⟩
          · rw [List.chain'_cons]
            refine ⟨⟨hpix, hxGfu, ?_⟩, ?_⟩
            · rw [hcfeq] at hcfux
              exact lt_of_le_of_ne (hnn u x) (Ne.symm hcfux)
            · exact piChain_stable Gf c0 f0 st.pi st1.pi st.visited
                (u :: rest) hmem spi hch
          · intro y hy
            rcases List.mem_cons.mp hy with rfl | hy'
            · exact hx
            · exact sm y (hmem y hy')
      obtain ⟨ic, ifl, im, icl, irch, ichn⟩ :=
        bfsLoop_spec Gf n s c0 f0 hnn fuel st1 q1 st' h hcf1 hff1 hA hB hC hD
      exact ⟨ic, ifl, fun x hx => im x (sm x hx), icl, irch, ichn⟩

theorem bfsLoop_range (Gf : Nat → List Nat) :
    ∀ (fuel : Nat) (st : EKSt) (q : List Nat) (st' : EKSt),
      bfsLoop Gf fuel st q = some st' →
      ∀ x, st'.visited x = true → st.visited x = true ∨ ∃ w, x ∈ Gf w
  | fuel, st, [], st', h => by
    have hst : st' = st := by
      cases fuel <;> simp only [bfsLoop, Option.some.injEq] at h <;> exact h.symm
    subst hst
    exact fun x hx => Or.inl hx
  | 0, st, u :: q, st', h => by cases h
  | fuel + 1, st, u :: q, st', h => by
    simp only [bfsLoop] at h
    cases hscan : bfsScan st u q (Gf u) with
    | mk st1 q1 =>
      rw [hscan] at h
      obtain ⟨_, _, _, snew, _, _, _, _, _⟩ :=
        bfsScan_spec (Gf u) st u q st1 q1 hscan
      intro x hx
      rcases bfsLoop_range Gf fuel st1 q1 st' h x hx with hx' | hx'
      · rcases snew x hx' with hold | ⟨hxGfu, _, _, _⟩
        · exact Or.inl hold
        · exact Or.inr ⟨u, hxGfu⟩
      · exact Or.inr hx'

theorem ekBfs_spec (Gf : Nat → List Nat) (n s t : Nat) (st st2 : EKSt)
    (found : Bool) (h : ekBfs Gf n st s t = some (st2, found))
    (hnn : ∀ x y, 0 ≤ cf st.c st.f x y) :
    st2.c = st.c ∧ st2.f = st.f ∧ found = st2.visited t ∧
    st2.visited s = true ∧
    (∀ x, st2.visited x = true →
      ∀ y, y ∈ Gf x → cf st.c st.f x y ≠ 0 → st2.visited y = true) ∧
    (∀ x, st2.visited x = true → Reach st.c st.f s x) ∧
    (∀ x, st2.visited x = true → ∃ p, PiChain Gf st.c st.f st2.pi s x p ∧
      ∀ y ∈ p, st2.visited y = true) ∧
    (∀ x, st2.visited x = true → x = s ∨ ∃ w, x ∈ Gf w) := by
  dsimp only [ekBfs] at h
  cases hloop : bfsLoop Gf (2 * n)
      { st with
        pi := fun x => if x = s then nil else nil
        visited := fun x => if x = s then true else false } [s] with
  | none => rw [hloop] at h; cases h
  | some st2' =>
    rw [hloop] at h
    simp only [Option.map_some', Option.some.injEq, Prod.mk.injEq] at h
    obtain ⟨rfl, rfl⟩ := h
    set st1 : EKSt :=
      { st with
        pi := fun x => if x = s then nil else nil
        visited := fun x => if x = s then true else false } with hst1
    have hvs1 : ∀ x, st1.visited x = true → x = s := by
      intro x hx
      simp only [hst1] at hx
      by_cases hxs : x = s
      · exact hxs
      · rw [if_neg hxs] at hx; cases hx
    obtain ⟨ic, ifl, im, icl, irch, ichn⟩ :=
      bfsLoop_spec Gf n s st.c st.f hnn (2 * n) st1 [s] st2' hloop rfl rfl
        (fun x hx => by
          rcases List.mem_singleton.mp hx with rfl
          simp [hst1])
        (fun x hx => Or.inl (by rw [hvs1 x hx]; exact List.mem_singleton_self s))
        (fun x hx => by rw [hvs1 x hx]; exact Relation.ReflTransGen.refl)
        (fun x hx => by
          rw [hvs1 x hx]
          exact ⟨[s], ⟨rfl, rfl, List.nodup_singleton s,
            List.chain'_singleton s⟩, fun y hy => by
              rcases List.mem_singleton.mp hy with rfl
              simp [hst1]⟩)
    refine ⟨ic, ifl, rfl, im s (by simp [hst1]), icl, irch, ichn, ?_⟩
    intro x hx
    rcases bfsLoop_range Gf (2 * n) st1 [s] st2' hloop x hx with hx' | hx'
    · exact Or.inl (hvs1 x hx')
    · exact Or.inr hx'

theorem ekBfs_isSome (Gf : Nat → List Nat) (n : Nat) (st : EKSt) (s t : Nat)
    (hG : ∀ w x, x ∈ Gf w → x < n) (hs : s < n) :
    (ekBfs Gf n st s t).isSome := by
  dsimp only [ekBfs]
  set st1 : EKSt :=
    { st with
      pi := fun x => if x = s then nil else nil
      visited := fun x => if x = s then true else false } with hst1
  have hcard : ((Finset.range n).filter fun x => st1.visited x = false).card
      = n - 1 := by
    have hset : ((Finset.range n).filter fun x => st1.visited x = false)
        = (Finset.range n).erase s := by
      ext x
      rw [Finset.mem_erase, Finset.mem_filter]
      by_cases hxs : x = s
      · simp [hst1, hxs]
      · simp [hst1, hxs]
    rw [hset, Finset.card_erase_of_mem (Finset.mem_range.mpr hs),
      Finset.card_range]
  have hloop := bfsLoop_isSome Gf n hG (2 * n) st1 [s]
    (by rw [hcard]; simp only [List.length_singleton]; omega)
  cases hl : bfsLoop Gf (2 * n) st1 [s] with
  | none => rw [hl] at hloop; cases hloop
  | some st2 => rfl

/-! ### Edmonds-Karp: the two predecessor-chain walks of `proc` -/

theorem chain'_of_pathEdges {S : Nat → Nat → Prop} :
    ∀ p : List Nat, (∀ a b, (a, b) ∈ pathEdges p → S a b) → List.Chain' S p
  | [], _ => List.chain'_nil
  | [a], _ => List.chain'_singleton a
  | a :: b :: rest, h => by
    rw [List.chain'_cons]
    refine ⟨h a b (by rw [pathEdges_cons₂]; exact List.mem_cons_self _ _), ?_⟩
    exact chain'_of_pathEdges (b :: rest) fun x y hxy =>
      h x y (by rw [pathEdges_cons₂]; exact List.mem_cons_of_mem _ hxy)

theorem augmentPath_append_last (d : Int) :
    ∀ (l : List Nat) (a x : Nat) (f : Mat), l.getLast? = some a →
      augmentPath f d (l ++ [x])
        = augmentPath (addM (addM f a x d) x a (-d)) d l
  | [], a, x, f, h => by cases h
  | [c], a, x, f, h => by
    simp only [List.getLast?_singleton, Option.some.injEq] at h
    subst h
    rfl
  | c :: c2 :: rest2, a, x, f, h => by
    rw [List.getLast?_cons_cons] at h
    show augmentPath f d (c :: c2 :: (rest2 ++ [x])) = _
    have ih := augmentPath_append_last d (c2 :: rest2) a x f h
    show addM (addM (augmentPath f d (c2 :: (rest2 ++ [x]))) c c2 d) c2 c (-d)
      = addM (addM (augmentPath (addM (addM f a x d) x a (-d)) d
          (c2 :: rest2)) c c2 d) c2 c (-d)
    rw [show c2 :: (rest2 ++ [x]) = (c2 :: rest2) ++ [x] from rfl, ih]

theorem procMin_spec (Gf : Nat → List Nat) (c f : Mat) (pi : Nat → Int)
    (s : Nat) :
    ∀ (p : List Nat) (x : Nat) (acc : Int) (fuel : Nat),
      PiChain Gf c f pi s x p → p.length ≤ fuel + 1 →
      ∃ m, procMin c f pi s fuel x acc = some m ∧ m ≤ acc ∧
        (∀ a b, (a, b) ∈ pathEdges p → m ≤ cf c f b a) ∧
        (0 < acc → 0 < m)
  | [], x, acc, fuel, hP, _ => by cases hP.1
  | [y], x, acc, fuel, hP, _ => by
    obtain ⟨hh, hl, _, _⟩ := hP
    simp only [List.head?_cons, Option.some.injEq] at hh
    simp only [List.getLast?_singleton, Option.some.injEq] at hl
    have hxs : x = s := (hh.symm.trans hl)
    refine ⟨acc, ?_, le_refl _, ?_, fun h => h⟩
    · cases fuel <;> simp [procMin, hxs]
    · intro a b hab
      simp [pathEdges] at hab
  | y :: b :: rest, x, acc, fuel, hP, hlen => by
    obtain ⟨hh, hl, hnd, hch⟩ := hP
    simp only [List.head?_cons, Option.some.injEq] at hh
    rw [List.getLast?_cons_cons] at hl
    have hxs : x ≠ s := by
      intro hc
      have hys : y = s := hh.trans hc
      rw [hys] at hnd
      exact (List.nodup_cons.mp hnd).1 (List.mem_of_mem_getLast? hl)
    obtain ⟨fuel', rfl⟩ : ∃ k, fuel = k + 1 := by
      cases fuel with
      | zero => simp at hlen
      | succ k => exact ⟨k, rfl⟩
    rw [List.chain'_cons] at hch
    obtain ⟨⟨hpiy, hyGfb, hpos⟩, hch'⟩ := hch
    have hpix : pi x = (b : Int) := hh ▸ hpiy
    have hpos' : 0 < cf c f b x := hh ▸ hpos
    have hlen' : (b :: rest).length ≤ fuel' + 1 := by
      simp only [List.length_cons] at hlen ⊢
      omega
    have hP' : PiChain Gf c f pi s b (b :: rest) :=
      ⟨rfl, hl, (List.nodup_cons.mp hnd).2, hch'⟩
    obtain ⟨m, hm, hmacc, hmedge, hmpos⟩ := procMin_spec Gf c f pi s
      (b :: rest) b (min acc (cf c f b x)) fuel' hP' hlen'
    refine ⟨m, ?_, le_trans hmacc (min_le_left _ _), ?_, ?_⟩
    · show procMin c f pi s (fuel' + 1) x acc = some m
      simp only [procMin, if_neg hxs]
      rw [hpix]
      simp only [Int.toNat_natCast]
      exact hm
    · intro a' b' hab
      rw [pathEdges_cons₂] at hab
      rcases List.mem_cons.mp hab with heq | hab'
      · injection heq with h1 h2
        subst h1
        subst h2
        exact le_trans hmacc (by rw [hh]; exact min_le_right _ _)
      · exact hmedge a' b' hab'
    · intro hacc
      exact hmpos (lt_min hacc hpos')

theorem procUpd_spec (Gf : Nat → List Nat) (c f : Mat) (pi : Nat → Int)
    (s : Nat) (cfp : Int) :
    ∀ (p : List Nat) (x : Nat) (f0 : Mat) (fuel : Nat),
      PiChain Gf c f pi s x p → p.length ≤ fuel + 1 →
      procUpd pi cfp s fuel x f0 = some (augmentPath f0 cfp p.reverse)
  | [], x, f0, fuel, hP, _ => by cases hP.1
  | [y], x, f0, fuel, hP, _ => by
    obtain ⟨hh, hl, _, _⟩ := hP
    simp only [List.head?_cons, Option.some.injEq] at hh
    simp only [List.getLast?_singleton, Option.some.injEq] at hl
    have hxs : x = s := (hh.symm.trans hl)
    cases fuel <;> simp [procUpd, hxs, augmentPath]
  | y :: b :: rest, x, f0, fuel, hP, hlen => by
    obtain ⟨hh, hl, hnd, hch⟩ := hP
    simp only [List.head?_cons, Option.some.injEq] at hh
    rw [List.getLast?_cons_cons] at hl
    have hxs : x ≠ s := by
      intro hc
      have hys : y = s := hh.trans hc
      rw [hys] at hnd
      exact (List.nodup_cons.mp hnd).1 (List.mem_of_mem_getLast? hl)
    obtain ⟨fuel', rfl⟩ : ∃ k, fuel = k + 1 := by
      cases fuel with
      | zero => simp at hlen
      | succ k => exact ⟨k, rfl⟩
    rw [List.chain'_cons] at hch
    obtain ⟨⟨hpiy, hyGfb, hpos⟩, hch'⟩ := hch
    have hpix : pi x = (b : Int) := hh ▸ hpiy
    have hlen' : (b :: rest).length ≤ fuel' + 1 := by
      simp only [List.length_cons] at hlen ⊢
      omega
    have hP' : PiChain Gf c f pi s b (b :: rest) :=
      ⟨rfl, hl, (List.nodup_cons.mp hnd).2, hch'⟩
    have ih := procUpd_spec Gf c f pi s cfp (b :: rest) b
      (addM (addM f0 b x cfp) x b (-cfp)) fuel' hP' hlen'
    show procUpd pi cfp s (fuel' + 1) x f0 = _
    simp only [procUpd, if_neg hxs]
    rw [hpix]
    simp only [Int.toNat_natCast]
    rw [ih]
    congr 1
    have hrev : (y :: b :: rest).reverse = (b :: rest).reverse ++ [x] := by
      rw [hh]
      simp
    rw [hrev, augmentPath_append_last cfp ((b :: rest).reverse) b x f0
      (by rw [List.getLast?_reverse]; rfl)]

theorem nodup_length_le (p : List Nat) (n : Nat) (hnd : p.Nodup)
    (hmem : ∀ x ∈ p, x < n) : p.length ≤ n := by
  have hcard := List.toFinset_card_of_nodup hnd
  have hsub : p.toFinset ⊆ Finset.range n := fun x hx =>
    Finset.mem_range.mpr (hmem x (List.mem_toFinset.mp hx))
  have hle := Finset.card_le_card hsub
  rw [hcard, Finset.card_range] at hle
  exact hle

theorem ekProc_spec (Gf : Nat → List Nat) (n s t : Nat) (st : EKSt)
    (p : List Nat) (hP : PiChain Gf st.c st.f st.pi s t p)
    (hlen : p.length ≤ n + 1) :
    ∃ cfp, ekProc n st s t
        = some ({ st with f := augmentPath st.f cfp p.reverse }, cfp) ∧
      0 < cfp ∧ AugPathOK Gf st.c st.f s t cfp p.reverse := by
  obtain ⟨m, hmin, hmacc, hmedge, hmpos⟩ :=
    procMin_spec Gf st.c st.f st.pi s p t inf n hP hlen
  have hm0 : 0 < m := hmpos (by norm_num [inf])
  have hupd := procUpd_spec Gf st.c st.f st.pi s m p t st.f n hP hlen
  refine ⟨m, ?_, hm0, ?_⟩
  · unfold ekProc
    rw [hmin]
    change (match procUpd st.pi m s n t st.f with
      | none => none
      | some f2 => some ({ st with f := f2 }, m)) = _
    rw [hupd]
  · obtain ⟨hh, hl, hnd, hch⟩ := hP
    refine ⟨?_, ?_, List.nodup_reverse.mpr hnd, ?_, hm0⟩
    · rw [List.head?_reverse]
      exact hl
    · rw [List.getLast?_reverse]
      exact hh
    · rw [List.chain'_reverse]
      refine chain'_of_pathEdges p ?_
      intro a b hab
      have hrel := chain'_rel_of_mem_pathEdges p hch a b hab
      exact ⟨hrel.2.1, hmedge a b hab⟩

theorem ekBfs_fail_noreach (Gf : Nat → List Nat) (n s t : Nat)
    (st st1 : EKSt) (h : ekBfs Gf n st s t = some (st1, false))
    (hnn : ∀ x y, 0 ≤ cf st.c st.f x y)
    (hsupp : ∀ u v, v ∉ Gf u → st.f u v = 0)
    (hcadj : ∀ u v, st.c u v ≠ 0 → v ∈ Gf u) :
    ¬ Reach st.c st.f s t := by
  obtain ⟨_, _, hfound, hvs, icl, _, _, _⟩ :=
    ekBfs_spec Gf n s t st st1 false h hnn
  have hvisit : ∀ x, Reach st.c st.f s x → st1.visited x = true := by
    intro x hreach
    induction hreach with
    | refl => exact hvs
    | @tail b c' hsb hbc ih =>
      have hadj : c' ∈ Gf b := by
        by_contra hnadj
        have hfz : st.f b c' = 0 := hsupp b c' hnadj
        have hcz : st.c b c' = 0 := by
          by_contra hcnz
          exact hnadj (hcadj b c' hcnz)
        have : cf st.c st.f b c' = 0 := by
          unfold cf
          rw [hfz, hcz]
          ring
        rw [this] at hbc
        exact absurd hbc (lt_irrefl 0)
      exact icl b ih c' hadj (ne_of_gt hbc)
  intro hreach
  have := hvisit t hreach
  rw [← hfound] at this
  cases this

/-! ### Edmonds-Karp: the search-and-augment loop -/

theorem ekLoop_spec (n s t : Nat) (Gf : Nat → List Nat)
    (hG : ∀ w x, x ∈ Gf w → x < n) (hGsym : ∀ w x, x ∈ Gf w → w ∈ Gf x)
    (hs : s < n) (hst : s ≠ t) :
    ∀ (fuel : Nat) (st : EKSt) (flow v : Int) (st' : EKSt),
      ekLoop Gf n t fuel st s flow = some (v, st') →
      Feasible Gf st.c st.f → Conserved n s t st.f →
      (∀ u w, st.c u w ≠ 0 → w ∈ Gf u) →
      st'.c = st.c ∧ Feasible Gf st'.c st'.f ∧ Conserved n s t st'.f ∧
      exc n st'.f s = exc n st.f s + (v - flow) ∧
      exc n st'.f t = exc n st.f t - (v - flow) ∧
      ¬ Reach st'.c st'.f s t
  | 0, st, flow, v, st', h, _, _, _ => by cases h
  | fuel + 1, st, flow, v, st', h, hfeas, hcons, hcadj => by
    have hnn : ∀ x y, 0 ≤ cf st.c st.f x y := by
      intro x y
      unfold cf
      have := hfeas.2.1 x y
      linarith
    simp only [ekLoop] at h
    cases hB : ekBfs Gf n st s t with
    | none => rw [hB] at h; cases h
    | some pr =>
      obtain ⟨st1, found⟩ := pr
      rw [hB] at h
      obtain ⟨bc, bf, bfound, bvs, bcl, brch, bchn, brange⟩ :=
        ekBfs_spec Gf n s t st st1 found hB hnn
      cases found with
      | false =>
        change some (flow, st1) = some (v, st') at h
        simp only [Option.some.injEq, Prod.mk.injEq] at h
        obtain ⟨rfl, rfl⟩ := h
        have hnr := ekBfs_fail_noreach Gf n s t st st1 hB hnn
          hfeas.2.2 hcadj
        refine ⟨bc, ?_, ?_, ?_, ?_, ?_⟩
        · rw [bc, bf]; exact hfeas
        · rw [bf]; exact hcons
        · rw [bf]; ring
        · rw [bf]; ring
        · rw [bc, bf]; exact hnr
      | true =>
        have hvt : st1.visited t = true := bfound.symm
        obtain ⟨p, hP, hpmem⟩ := bchn t hvt
        have hP' : PiChain Gf st1.c st1.f st1.pi s t p := by
          rw [bc, bf]; exact hP
        have hprange : ∀ x ∈ p, x < n := by
          intro x hx
          rcases brange x (hpmem x hx) with rfl | ⟨w, hw⟩
          · exact hs
          · exact hG w x hw
        have hlen : p.length ≤ n + 1 :=
          le_trans (nodup_length_le p n hP.2.2.1 hprange) (Nat.le_succ n)
        obtain ⟨cfp, hproc, hcfp, hap⟩ :=
          ekProc_spec Gf n s t st1 p hP' hlen
        change (match ekProc n st1 s t with
          | none => none
          | some (st2, cfp) => ekLoop Gf n t fuel st2 s (flow + cfp))
          = some (v, st') at h
        rw [hproc] at h
        change ekLoop Gf n t fuel { st1 with
          f := augmentPath st1.f cfp p.reverse } s (flow + cfp)
          = some (v, st') at h
        set st2 : EKSt := { st1 with
          f := augmentPath st1.f cfp p.reverse } with hst2
        have hap' : AugPathOK Gf st.c st.f s t cfp p.reverse := by
          rw [← bc, ← bf]; exact hap
        have hrrange : ∀ x ∈ p.reverse, x < n := by
          intro x hx
          exact hprange x (List.mem_reverse.mp hx)
        obtain ⟨hfeas2, hcons2, hexcs2, hexct2⟩ :=
          augment_preserves n s t Gf hGsym st.c st.f cfp p.reverse hap'
            hrrange hst hfeas hcons
        have hst2c : st2.c = st.c := bc
        have hst2f : st2.f = augmentPath st.f cfp p.reverse := by
          rw [hst2]
          simp only [bf]
        obtain ⟨ic, ifeas, icons, iexcs, iexct, ireach⟩ :=
          ekLoop_spec n s t Gf hG hGsym hs hst fuel st2 (flow + cfp) v st' h
            (by rw [hst2c, hst2f]; exact hfeas2)
            (by rw [hst2f]; exact hcons2)
            (by rw [hst2c]; exact hcadj)
        refine ⟨ic.trans hst2c, ifeas, icons, ?_, ?_, ireach⟩
        · rw [iexcs, hst2f, hexcs2]; ring
        · rw [iexct, hst2f, hexct2]; ring

theorem ekLoop_isSome (n s t : Nat) (Gf : Nat → List Nat)
    (hG : ∀ w x, x ∈ Gf w → x < n) (hGsym : ∀ w x, x ∈ Gf w → w ∈ Gf x)
    (hs : s < n) (hst : s ≠ t) (B : Int) :
    ∀ (fuel : Nat) (st : EKSt) (flow : Int),
      Feasible Gf st.c st.f → Conserved n s t st.f →
      (∑ w ∈ Finset.range n, max (st.c s w) 0) ≤ B →
      B < exc n st.f s + fuel →
      (ekLoop Gf n t fuel st s flow).isSome
  | 0, st, flow, hfeas, _, hB, hfuel => by
    exfalso
    have := exc_le_rowcap n s Gf st.c st.f hfeas
    simp only [Nat.cast_zero, add_zero] at hfuel
    linarith
  | fuel + 1, st, flow, hfeas, hcons, hB, hfuel => by
    have hnn : ∀ x y, 0 ≤ cf st.c st.f x y := by
      intro x y
      unfold cf
      have := hfeas.2.1 x y
      linarith
    simp only [ekLoop]
    have hBs := ekBfs_isSome Gf n st s t hG hs
    cases hBe : ekBfs Gf n st s t with
    | none => rw [hBe] at hBs; cases hBs
    | some pr =>
      obtain ⟨st1, found⟩ := pr
      obtain ⟨bc, bf, bfound, bvs, bcl, brch, bchn, brange⟩ :=
        ekBfs_spec Gf n s t st st1 found hBe hnn
      cases found with
      | false => rfl
      | true =>
        have hvt : st1.visited t = true := bfound.symm
        obtain ⟨p, hP, hpmem⟩ := bchn t hvt
        have hP' : PiChain Gf st1.c st1.f st1.pi s t p := by
          rw [bc, bf]; exact hP
        have hprange : ∀ x ∈ p, x < n := by
          intro x hx
          rcases brange x (hpmem x hx) with rfl | ⟨w, hw⟩
          · exact hs
          · exact hG w x hw
        have hlen : p.length ≤ n + 1 :=
          le_trans (nodup_length_le p n hP.2.2.1 hprange) (Nat.le_succ n)
        obtain ⟨cfp, hproc, hcfp, hap⟩ :=
          ekProc_spec Gf n s t st1 p hP' hlen
        change (match ekProc n st1 s t with
          | none => none
          | some (st2, cfp) =>
            ekLoop Gf n t fuel st2 s (flow + cfp)).isSome = true
        rw [hproc]
        change (ekLoop Gf n t fuel { st1 with
          f := augmentPath st1.f cfp p.reverse } s (flow + cfp)).isSome = true
        set st2 : EKSt := { st1 with
          f := augmentPath st1.f cfp p.reverse } with hst2
        have hap' : AugPathOK Gf st.c st.f s t cfp p.reverse := by
          rw [← bc, ← bf]; exact hap
        have hrrange : ∀ x ∈ p.reverse, x < n := fun x hx =>
          hprange x (List.mem_reverse.mp hx)
        obtain ⟨hfeas2, hcons2, hexcs2, _⟩ :=
          augment_preserves n s t Gf hGsym st.c st.f cfp p.reverse hap'
            hrrange hst hfeas hcons
        have hst2c : st2.c = st.c := bc
        have hst2f : st2.f = augmentPath st.f cfp p.reverse := by
          rw [hst2]
          simp only [bf]
        refine ekLoop_isSome n s t Gf hG hGsym hs hst B fuel st2 (flow + cfp)
          ?_ ?_ ?_ ?_
        · rw [hst2c, hst2f]; exact hfeas2
        · rw [hst2f]; exact hcons2
        · rw [hst2c]; exact hB
        · rw [hst2f, hexcs2]
          omega

/-! ### Compute-level properties -/

theorem ffComputeFull_props (n : Nat) (es : List Edge) (hval : ValidInput n es)
    (s t : Nat) (hs : s < n) (hst : s ≠ t) :
    ∃ v st', ffComputeFull (mkNet n es) s t = some (v, st') ∧
      st'.c = (mkNet n es).c ∧
      Feasible (mkNet n es).Gf st'.c st'.f ∧
      Conserved n s t st'.f ∧
      exc n st'.f s = v ∧ exc n st'.f t = -v ∧
      ¬ Reach st'.c st'.f s t := by
  set net := mkNet n es with hnet
  have hn : net.n = n := mkNet_n n es
  have hGr : ∀ w x, x ∈ net.Gf w → x < n := fun w x hx =>
    (mkNet_Gf_range n es hval w x hx).1
  have hGsym : ∀ w x, x ∈ net.Gf w → w ∈ net.Gf x := fun w x hx =>
    (mkNet_Gf_symm n es w x).mp hx
  have hcadj : ∀ u v, net.c u v ≠ 0 → v ∈ net.Gf u := mkNet_c_adj n es
  set st0 : FFSt := ⟨net.c, net.f, fun _ => false⟩ with hst0
  have hf0 : ∀ p q, st0.f p q = 0 := fun p q => mkNet_f n es p q
  have hfeas0 : Feasible net.Gf st0.c st0.f := by
    refine ⟨fun u v => ?_, fun u v => ?_, fun u v _ => hf0 u v⟩
    · rw [hf0, hf0]; ring
    · rw [hf0]; exact mkNet_c_nonneg n es hval u v
  have hcons0 : Conserved n s t st0.f := by
    intro v _ _ _
    exact Finset.sum_eq_zero fun x _ => mkNet_f n es v x
  have hexc0 : exc n st0.f s = 0 :=
    Finset.sum_eq_zero fun x _ => mkNet_f n es s x
  have hexct0 : exc n st0.f t = 0 :=
    Finset.sum_eq_zero fun x _ => mkNet_f n es t x
  have htc0 : 0 ≤ totalCap net := by
    unfold totalCap
    refine Finset.sum_nonneg fun u _ => Finset.sum_nonneg fun v _ => ?_
    exact le_max_right _ _
  have hrow : (∑ w ∈ Finset.range n, max (st0.c s w) 0) ≤ totalCap net := by
    unfold totalCap
    rw [hn]
    refine Finset.single_le_sum (f := fun u =>
      ∑ v ∈ Finset.range n, max (net.c u v) 0) ?_ (Finset.mem_range.mpr hs)
    intro u _
    exact Finset.sum_nonneg fun v _ => le_max_right _ _
  have hfuel : totalCap net < exc n st0.f s + (loopFuel net : Int) := by
    rw [hexc0]
    unfold loopFuel
    push_cast
    rw [Int.toNat_of_nonneg htc0]
    omega
  have hceq : ffComputeFull net s t
      = ffLoop net.Gf n t (loopFuel net) st0 s 0 := by
    unfold ffComputeFull
    rw [hn]
  have hsome := ffLoop_isSome n s t net.Gf hGr hGsym hs hst (totalCap net)
    (loopFuel net) st0 0 hfeas0 hcons0 hrow hfuel
  cases hres : ffLoop net.Gf n t (loopFuel net) st0 s 0 with
  | none => rw [hres] at hsome; cases hsome
  | some pr =>
    obtain ⟨v, st'⟩ := pr
    obtain ⟨ic, ifeas, icons, iexcs, iexct, ireach⟩ :=
      ffLoop_spec n s t net.Gf hGr hGsym hs hst (loopFuel net) st0 0 v st'
        hres hfeas0 hcons0 hcadj
    refine ⟨v, st', by rw [hceq, hres], ic, ifeas, icons, ?_, ?_, ireach⟩
    · rw [iexcs, hexc0]; ring
    · rw [iexct, hexct0]; ring

theorem ekComputeFull_props (n : Nat) (es : List Edge) (hval : ValidInput n es)
    (s t : Nat) (hs : s < n) (hst : s ≠ t) :
    ∃ v st', ekComputeFull (mkNet n es) s t = some (v, st') ∧
      st'.c = (mkNet n es).c ∧
      Feasible (mkNet n es).Gf st'.c st'.f ∧
      Conserved n s t st'.f ∧
      exc n st'.f s = v ∧ exc n st'.f t = -v ∧
      ¬ Reach st'.c st'.f s t := by
  set net := mkNet n es with hnet
  have hn : net.n = n := mkNet_n n es
  have hGr : ∀ w x, x ∈ net.Gf w → x < n := fun w x hx =>
    (mkNet_Gf_range n es hval w x hx).1
  have hGsym : ∀ w x, x ∈ net.Gf w → w ∈ net.Gf x := fun w x hx =>
    (mkNet_Gf_symm n es w x).mp hx
  have hcadj : ∀ u v, net.c u v ≠ 0 → v ∈ net.Gf u := mkNet_c_adj n es
  set st0 : EKSt := ⟨net.c, net.f, fun _ => false, fun _ => nil⟩ with hst0
  have hf0 : ∀ p q, st0.f p q = 0 := fun p q => mkNet_f n es p q
  have hfeas0 : Feasible net.Gf st0.c st0.f := by
    refine ⟨fun u v => ?_, fun u v => ?_, fun u v _ => hf0 u v⟩
    · rw [hf0, hf0]; ring
    · rw [hf0]; exact mkNet_c_nonneg n es hval u v
  have hcons0 : Conserved n s t st0.f := by
    intro v _ _ _
    exact Finset.sum_eq_zero fun x _ => mkNet_f n es v x
  have hexc0 : exc n st0.f s = 0 :=
    Finset.sum_eq_zero fun x _ => mkNet_f n es s x
  have hexct0 : exc n st0.f t = 0 :=
    Finset.sum_eq_zero fun x _ => mkNet_f n es t x
  have htc0 : 0 ≤ totalCap net := by
    unfold totalCap
    refine Finset.sum_nonneg fun u _ => Finset.sum_nonneg fun v _ => ?_
    exact le_max_right _ _
  have hrow : (∑ w ∈ Finset.range n, max (st0.c s w) 0) ≤ totalCap net := by
    unfold totalCap
    rw [hn]
    refine Finset.single_le_sum (f := fun u =>
      ∑ v ∈ Finset.range n, max (net.c u v) 0) ?_ (Finset.mem_range.mpr hs)
    intro u _
    exact Finset.sum_nonneg fun v _ => le_max_right _ _
  have hfuel : totalCap net < exc n st0.f s + (loopFuel net : Int) := by
    rw [hexc0]
    unfold loopFuel
    push_cast
    rw [Int.toNat_of_nonneg htc0]
    omega
  have hceq : ekComputeFull net s t
      = ekLoop net.Gf n t (loopFuel net) st0 s 0 := by
    unfold ekComputeFull
    rw [hn]
  have hsome := ekLoop_isSome n s t net.Gf hGr hGsym hs hst (totalCap net)
    (loopFuel net) st0 0 hfeas0 hcons0 hrow hfuel
  cases hres : ekLoop net.Gf n t (loopFuel net) st0 s 0 with
  | none => rw [hres] at hsome; cases hsome
  | some pr =>
    obtain ⟨v, st'⟩ := pr
    obtain ⟨ic, ifeas, icons, iexcs, iexct, ireach⟩ :=
      ekLoop_spec n s t net.Gf hGr hGsym hs hst (loopFuel net) st0 0 v st'
        hres hfeas0 hcons0 hcadj
    refine ⟨v, st', by rw [hceq, hres], ic, ifeas, icons, ?_, ?_, ireach⟩
    · rw [iexcs, hexc0]; ring
    · rw [iexct, hexct0]; ring

/-! ### Cuts: weak duality and the reachability cut -/

theorem sum_skew_zero (f : Mat) (S : Finset Nat)
    (hskew : ∀ u v, f u v = - f v u) :
    ∑ u ∈ S, ∑ v ∈ S, f u v = 0 := by
  have h1 : ∑ u ∈ S, ∑ v ∈ S, f u v = ∑ v ∈ S, ∑ u ∈ S, f u v :=
    Finset.sum_comm
  have h2 : ∑ v ∈ S, ∑ u ∈ S, f u v
      = - ∑ v ∈ S, ∑ u ∈ S, f v u := by
    rw [← Finset.sum_neg_distrib]
    refine Finset.sum_congr rfl fun v _ => ?_
    rw [← Finset.sum_neg_distrib]
    refine Finset.sum_congr rfl fun u _ => ?_
    rw [hskew v u]
    ring
  have h3 : ∑ v ∈ S, ∑ u ∈ S, f v u = ∑ u ∈ S, ∑ v ∈ S, f u v := rfl
  rw [h3] at h2
  rw [h2] at h1
  linarith

theorem value_eq_cutflow (n s t : Nat) (f : Mat)
    (hcons : Conserved n s t f) (hskew : ∀ u v, f u v = - f v u)
    (S : Finset Nat) (hSsub : S ⊆ Finset.range n) (hsS : s ∈ S)
    (htS : t ∉ S) :
    exc n f s = ∑ u ∈ S, ∑ v ∈ Finset.range n \ S, f u v := by
  have h1 : ∑ u ∈ S, exc n f u = exc n f s := by
    refine Finset.sum_eq_single_of_mem s hsS fun u hu hus => ?_
    exact hcons u (Finset.mem_range.mp (hSsub hu)) hus
      (fun hc => htS (hc ▸ hu))
  have h2 : ∀ u, exc n f u
      = (∑ v ∈ S, f u v) + ∑ v ∈ Finset.range n \ S, f u v := by
    intro u
    unfold exc
    rw [← Finset.sum_sdiff hSsub]
    ring
  calc exc n f s = ∑ u ∈ S, exc n f u := h1.symm
    _ = ∑ u ∈ S, ((∑ v ∈ S, f u v) + ∑ v ∈ Finset.range n \ S, f u v) :=
        Finset.sum_congr rfl fun u _ => h2 u
    _ = (∑ u ∈ S, ∑ v ∈ S, f u v)
        + ∑ u ∈ S, ∑ v ∈ Finset.range n \ S, f u v :=
        Finset.sum_add_distrib
    _ = ∑ u ∈ S, ∑ v ∈ Finset.range n \ S, f u v := by
        rw [sum_skew_zero f S hskew]
        ring

theorem value_le_cutcap (n s t : Nat) (Gf : Nat → List Nat) (c f : Mat)
    (hfeas : Feasible Gf c f) (hcons : Conserved n s t f)
    (S : Finset Nat) (hSsub : S ⊆ Finset.range n) (hsS : s ∈ S)
    (htS : t ∉ S) :
    exc n f s ≤ ∑ u ∈ S, ∑ v ∈ Finset.range n \ S, c u v := by
  rw [value_eq_cutflow n s t f hcons hfeas.1 S hSsub hsS htS]
  exact Finset.sum_le_sum fun u _ => Finset.sum_le_sum fun v _ =>
    hfeas.2.1 u v

theorem noreach_cut_eq (n s t : Nat) (Gf : Nat → List Nat) (c f : Mat)
    (hfeas : Feasible Gf c f) (hcons : Conserved n s t f)
    (hnr : ¬ Reach c f s t) (hs : s < n) :
    ∃ S : Finset Nat, S ⊆ Finset.range n ∧ s ∈ S ∧ t ∉ S ∧
      exc n f s = ∑ u ∈ S, ∑ v ∈ Finset.range n \ S, c u v := by
  classical
  refine ⟨(Finset.range n).filter fun x => Reach c f s x,
    Finset.filter_subset _ _, ?_, ?_, ?_⟩
  · exact Finset.mem_filter.mpr
      ⟨Finset.mem_range.mpr hs, Relation.ReflTransGen.refl⟩
  · intro hc
    exact hnr (Finset.mem_filter.mp hc).2
  · rw [value_eq_cutflow n s t f hcons hfeas.1 _ (Finset.filter_subset _ _)
      (Finset.mem_filter.mpr ⟨Finset.mem_range.mpr hs,
        Relation.ReflTransGen.refl⟩)
      (fun hc => hnr (Finset.mem_filter.mp hc).2)]
    refine Finset.sum_congr rfl fun u hu => Finset.sum_congr rfl fun v hv => ?_
    have hur : Reach c f s u := (Finset.mem_filter.mp hu).2
    have hvnr : ¬ Reach c f s v := by
      intro hc
      rcases Finset.mem_sdiff.mp hv with ⟨hvr, hvs⟩
      exact hvs (Finset.mem_filter.mpr ⟨hvr, hc⟩)
    have hcf : cf c f u v ≤ 0 := by
      by_contra hcf
      push_neg at hcf
      exact hvnr (Relation.ReflTransGen.tail hur hcf)
    have := hfeas.2.1 u v
    unfold cf at hcf
    linarith

theorem maxflow_agree (n s t : Nat) (Gf : Nat → List Nat) (c : Mat)
    (f1 f2 : Mat) (v1 v2 : Int)
    (h1 : Feasible Gf c f1) (hc1 : Conserved n s t f1)
    (he1 : exc n f1 s = v1) (hr1 : ¬ Reach c f1 s t)
    (h2 : Feasible Gf c f2) (hc2 : Conserved n s t f2)
    (he2 : exc n f2 s = v2) (hr2 : ¬ Reach c f2 s t)
    (hs : s < n) : v1 = v2 := by
  obtain ⟨S1, hS1sub, hs1, ht1, hcut1⟩ :=
    noreach_cut_eq n s t Gf c f1 h1 hc1 hr1 hs
  obtain ⟨S2, hS2sub, hs2, ht2, hcut2⟩ :=
    noreach_cut_eq n s t Gf c f2 h2 hc2 hr2 hs
  have hle12 : v1 ≤ v2 := by
    have := value_le_cutcap n s t Gf c f1 h1 hc1 S2 hS2sub hs2 ht2
    rw [he1] at this
    rw [he2] at hcut2
    omega
  have hle21 : v2 ≤ v1 := by
    have := value_le_cutcap n s t Gf c f2 h2 hc2 S1 hS1sub hs1 ht1
    rw [he2] at this
    rw [he1] at hcut1
    omega
  omega

/-! ### Observation points: state after k complete iterations -/

theorem ffRun_inv (n s t : Nat) (Gf : Nat → List Nat)
    (hGr : ∀ w x, x ∈ Gf w → x < n) (hGsym : ∀ w x, x ∈ Gf w → w ∈ Gf x)
    (hs : s < n) (hst : s ≠ t) :
    ∀ (k : Nat) (st : FFSt) (flow v : Int) (st' : FFSt),
      ffRun Gf n t k st s flow = some (v, st') →
      Feasible Gf st.c st.f → Conserved n s t st.f →
      st'.c = st.c ∧ Feasible Gf st'.c st'.f ∧ Conserved n s t st'.f
  | 0, st, flow, v, st', h, hfeas, hcons => by
    simp only [ffRun, Option.some.injEq, Prod.mk.injEq] at h
    obtain ⟨rfl, rfl⟩ := h
    exact ⟨rfl, hfeas, hcons⟩
  | k + 1, st, flow, v, st', h, hfeas, hcons => by
    simp only [ffRun] at h
    cases hD : ffDfs Gf t (n + 1) st s with
    | none => rw [hD] at h; cases h
    | some pr =>
      obtain ⟨st1, aug⟩ := pr
      rw [hD] at h
      change (if 0 < aug then ffRun Gf n t k st1 s (flow + aug)
        else some (flow, st1)) = some (v, st') at h
      by_cases hpos : 0 < aug
      · rw [if_pos hpos] at h
        obtain ⟨hc1, p, hap, hrange, hf1⟩ :=
          ffDfs_step n s t Gf hGr st st1 aug hD hpos hs
        obtain ⟨hfeas1, hcons1, _, _⟩ :=
          augment_preserves n s t Gf hGsym st.c st.f aug p hap hrange hst
            hfeas hcons
        obtain ⟨ic, ifeas, icons⟩ := ffRun_inv n s t Gf hGr hGsym hs hst
          k st1 (flow + aug) v st' h
          (by rw [hc1, hf1]; exact hfeas1) (by rw [hf1]; exact hcons1)
        exact ⟨ic.trans hc1, ifeas, icons⟩
      · rw [if_neg hpos] at h
        simp only [Option.some.injEq, Prod.mk.injEq] at h
        obtain ⟨rfl, rfl⟩ := h
        have hpost := dfs_visit_post Gf t (n + 1) _ s inf st1 aug hD
        have hf1 : st1.f = st.f := hpost.2.2.2.2.1 (not_lt.mp hpos)
        have hc1 : st1.c = st.c := hpost.1
        exact ⟨hc1, by rw [hc1, hf1]; exact hfeas, by rw [hf1]; exact hcons⟩

theorem ekRun_inv (n s t : Nat) (Gf : Nat → List Nat)
    (hG : ∀ w x, x ∈ Gf w → x < n) (hGsym : ∀ w x, x ∈ Gf w → w ∈ Gf x)
    (hs : s < n) (hst : s ≠ t) :
    ∀ (k : Nat) (st : EKSt) (flow v : Int) (st' : EKSt),
      ekRun Gf n t k st s flow = some (v, st') →
      Feasible Gf st.c st.f → Conserved n s t st.f →
      st'.c = st.c ∧ Feasible Gf st'.c st'.f ∧ Conserved n s t st'.f
  | 0, st, flow, v, st', h, hfeas, hcons => by
    simp only [ekRun, Option.some.injEq, Prod.mk.injEq] at h
    obtain ⟨rfl, rfl⟩ := h
    exact ⟨rfl, hfeas, hcons⟩
  | k + 1, st, flow, v, st', h, hfeas, hcons => by
    have hnn : ∀ x y, 0 ≤ cf st.c st.f x y := by
      intro x y
      unfold cf
      have := hfeas.2.1 x y
      linarith
    simp only [ekRun] at h
    cases hB : ekBfs Gf n st s t with
    | none => rw [hB] at h; cases h
    | some pr =>
      obtain ⟨st1, found⟩ := pr
      rw [hB] at h
      obtain ⟨bc, bf, bfound, bvs, bcl, brch, bchn, brange⟩ :=
        ekBfs_spec Gf n s t st st1 found hB hnn
      cases found with
      | false =>
        change some (flow, st1) = some (v, st') at h
        simp only [Option.some.injEq, Prod.mk.injEq] at h
        obtain ⟨rfl, rfl⟩ := h
        exact ⟨bc, by rw [bc, bf]; exact hfeas, by rw [bf]; exact hcons⟩
      | true =>
        have hvt : st1.visited t = true := bfound.symm
        obtain ⟨p, hP, hpmem⟩ := bchn t hvt
        have hP' : PiChain Gf st1.c st1.f st1.pi s t p := by
          rw [bc, bf]; exact hP
        have hprange : ∀ x ∈ p, x < n := by
          intro x hx
          rcases brange x (hpmem x hx) with rfl | ⟨w, hw⟩
          · exact hs
          · exact hG w x hw
        have hlen : p.length ≤ n + 1 :=
          le_trans (nodup_length_le p n hP.2.2.1 hprange) (Nat.le_succ n)
        obtain ⟨cfp, hproc, hcfp, hap⟩ :=
          ekProc_spec Gf n s t st1 p hP' hlen
        change (match ekProc n st1 s t with
          | none => none
          | some (st2, cfp) => ekRun Gf n t k st2 s (flow + cfp))
          = some (v, st') at h
        rw [hproc] at h
        change ekRun Gf n t k { st1 with
          f := augmentPath st1.f cfp p.reverse } s (flow + cfp)
          = some (v, st') at h
        set st2 : EKSt := { st1 with
          f := augmentPath st1.f cfp p.reverse } with hst2
        have hap' : AugPathOK Gf st.c st.f s t cfp p.reverse := by
          rw [← bc, ← bf]; exact hap
        have hrrange : ∀ x ∈ p.reverse, x < n := fun x hx =>
          hprange x (List.mem_reverse.mp hx)
        obtain ⟨hfeas2, hcons2, _, _⟩ :=
          augment_preserves n s t Gf hGsym st.c st.f cfp p.reverse hap'
            hrrange hst hfeas hcons
        have hst2c : st2.c = st.c := bc
        have hst2f : st2.f = augmentPath st.f cfp p.reverse := by
          rw [hst2]
          simp only [bf]
        obtain ⟨ic, ifeas, icons⟩ := ekRun_inv n s t Gf hG hGsym hs hst
          k st2 (flow + cfp) v st' h
          (by rw [hst2c, hst2f]; exact hfeas2) (by rw [hst2f]; exact hcons2)
        exact ⟨ic.trans hst2c, ifeas, icons⟩

/-! ### Frame lemmas for the searches -/

theorem bfsLoop_frame (Gf : Nat → List Nat) :
    ∀ (fuel : Nat) (st : EKSt) (q : List Nat) (st' : EKSt),
      bfsLoop Gf fuel st q = some st' → st'.c = st.c ∧ st'.f = st.f
  | fuel, st, [], st', h => by
    have hst : st' = st := by
      cases fuel <;> simp only [bfsLoop, Option.some.injEq] at h <;> exact h.symm
    subst hst
    exact ⟨rfl, rfl⟩
  | 0, st, u :: q, st', h => by cases h
  | fuel + 1, st, u :: q, st', h => by
    simp only [bfsLoop] at h
    cases hscan : bfsScan st u q (Gf u) with
    | mk st1 q1 =>
      rw [hscan] at h
      obtain ⟨sc, sf, _, _, _, _, _, _, _⟩ :=
        bfsScan_spec (Gf u) st u q st1 q1 hscan
      obtain ⟨ic, ifl⟩ := bfsLoop_frame Gf fuel st1 q1 st' h
      exact ⟨ic.trans sc, ifl.trans sf⟩

theorem ekBfs_frame (Gf : Nat → List Nat) (n : Nat) (st : EKSt) (s t : Nat)
    (st2 : EKSt) (found : Bool) (h : ekBfs Gf n st s t = some (st2, found)) :
    st2.c = st.c ∧ st2.f = st.f := by
  dsimp only [ekBfs] at h
  cases hloop : bfsLoop Gf (2 * n)
      { st with
        pi := fun x => if x = s then nil else nil
        visited := fun x => if x = s then true else false } [s] with
  | none => rw [hloop] at h; cases h
  | some st2' =>
    rw [hloop] at h
    simp only [Option.map_some', Option.some.injEq, Prod.mk.injEq] at h
    obtain ⟨rfl, rfl⟩ := h
    exact bfsLoop_frame Gf (2 * n)
      { st with
        pi := fun x => if x = s then nil else nil
        visited := fun x => if x = s then true else false } [s] st2' hloop

/-! ### Source equal to sink: the loop guard never fails -/

theorem ffDfs_self (Gf : Nat → List Nat) (fuel : Nat) (st : FFSt) (s : Nat) :
    ffDfs Gf s (fuel + 1) st s
      = some (markFF { st with visited := fun _ => false } s, inf) := by
  unfold ffDfs
  simp [dfs_visit]

theorem ffLoop_self (Gf : Nat → List Nat) (n s : Nat) :
    ∀ (fuel : Nat) (st : FFSt) (flow : Int),
      ffLoop Gf n s fuel st s flow = none
  | 0, st, flow => rfl
  | fuel + 1, st, flow => by
    simp only [ffLoop]
    rw [ffDfs_self Gf n st s]
    change (if 0 < inf then ffLoop Gf n s fuel
      (markFF { st with visited := fun _ => false } s) s (flow + inf)
      else some (flow, markFF { st with visited := fun _ => false } s)) = none
    rw [if_pos (by norm_num [inf])]
    exact ffLoop_self Gf n s fuel _ _

theorem bfsLoop_mono (Gf : Nat → List Nat) :
    ∀ (fuel : Nat) (st : EKSt) (q : List Nat) (st' : EKSt),
      bfsLoop Gf fuel st q = some st' →
      ∀ x, st.visited x = true → st'.visited x = true
  | fuel, st, [], st', h => by
    have hst : st' = st := by
      cases fuel <;> simp only [bfsLoop, Option.some.injEq] at h <;> exact h.symm
    subst hst
    exact fun x hx => hx
  | 0, st, u :: q, st', h => by cases h
  | fuel + 1, st, u :: q, st', h => by
    simp only [bfsLoop] at h
    cases hscan : bfsScan st u q (Gf u) with
    | mk st1 q1 =>
      rw [hscan] at h
      obtain ⟨_, _, sm, _, _, _, _, _, _⟩ :=
        bfsScan_spec (Gf u) st u q st1 q1 hscan
      exact fun x hx => bfsLoop_mono Gf fuel st1 q1 st' h x (sm x hx)

theorem procMin_self (c f : Mat) (pi : Nat → Int) (s : Nat) (fuel : Nat)
    (acc : Int) : procMin c f pi s fuel s acc = some acc := by
  cases fuel <;> simp [procMin]

theorem procUpd_self (pi : Nat → Int) (cfp : Int) (s : Nat) (fuel : Nat)
    (f : Mat) : procUpd pi cfp s fuel s f = some f := by
  cases fuel <;> simp [procUpd]

theorem ekProc_self (n : Nat) (st : EKSt) (s : Nat) :
    ekProc n st s s = some (st, inf) := by
  unfold ekProc
  rw [procMin_self]
  change (match procUpd st.pi inf s n s st.f with
    | none => none
    | some f2 => some ({ st with f := f2 }, inf)) = some (st, inf)
  rw [procUpd_self]

theorem ekLoop_self (Gf : Nat → List Nat) (n s : Nat) :
    ∀ (fuel : Nat) (st : EKSt) (flow : Int),
      ekLoop Gf n s fuel st s flow = none
  | 0, st, flow => rfl
  | fuel + 1, st, flow => by
    simp only [ekLoop]
    cases hB : ekBfs Gf n st s s with
    | none => rfl
    | some pr =>
      obtain ⟨st1, found⟩ := pr
      have hfound : found = true := by
        dsimp only [ekBfs] at hB
        cases hloop : bfsLoop Gf (2 * n)
            { st with
              pi := fun x => if x = s then nil else nil
              visited := fun x => if x = s then true else false } [s] with
        | none => rw [hloop] at hB; cases hB
        | some st2' =>
          rw [hloop] at hB
          simp only [Option.map_some', Option.some.injEq, Prod.mk.injEq] at hB
          have hvs := bfsLoop_mono Gf (2 * n) _ [s] st2' hloop s (by simp)
          rw [← hB.2]
          exact hvs
      subst hfound
      change (match ekProc n st1 s s with
        | none => none
        | some (st2, cfp) => ekLoop Gf n s fuel st2 s (flow + cfp)) = none
      rw [ekProc_self]
      exact ekLoop_self Gf n s fuel st1 (flow + inf)

/-! ### Claim theorems -/

/-- C1: for every valid input (vertex count `n`, directed capacitated edges
with non-negative integer capacities, no self-loops, no
opposite-direction original edge pairs, in-range indices) and
`s ≠ t`, `ford_fulkerson::compute(s, t)` and `edmonds_karp::compute(s, t)`
return the same maximum-flow value (and both terminate). -/
theorem C1_cross_implementation_agreement (n : Nat) (es : List Edge)
    (s t : Nat) (hval : ValidInput n es) (hs : s < n) (ht : t < n)
    (hst : s ≠ t) :
    ffCompute (mkNet n es) s t = ekCompute (mkNet n es) s t ∧
    (ffCompute (mkNet n es) s t).isSome := by
  obtain ⟨v1, st1, hff, hc1, hfe1, hco1, he1, _, hr1⟩ :=
    ffComputeFull_props n es hval s t hs hst
  obtain ⟨v2, st2, hek, hc2, hfe2, hco2, he2, _, hr2⟩ :=
    ekComputeFull_props n es hval s t hs hst
  rw [hc1] at hfe1 hr1
  rw [hc2] at hfe2 hr2
  have hv : v1 = v2 :=
    maxflow_agree n s t (mkNet n es).Gf (mkNet n es).c st1.f st2.f v1 v2
      hfe1 hco1 he1 hr1 hfe2 hco2 he2 hr2 hs
  constructor
  · unfold ffCompute ekCompute
    rw [hff, hek]
    simp [hv]
  · unfold ffCompute
    rw [hff]
    rfl

/-- Witness for C1 on the single-edge network `s → t` of capacity 5. -/
theorem C1_cross_implementation_agreement_witness :
    ValidInput 2 [(0, 1, 5)] ∧ (0 : Nat) < 2 ∧ (1 : Nat) < 2 ∧ 0 ≠ 1 ∧
    (ffCompute (mkNet 2 [(0, 1, 5)]) 0 1 = ekCompute (mkNet 2 [(0, 1, 5)]) 0 1 ∧
      (ffCompute (mkNet 2 [(0, 1, 5)]) 0 1).isSome) :=
  ⟨by decide, by decide, by decide, by decide,
    C1_cross_implementation_agreement 2 [(0, 1, 5)] 0 1 (by decide) (by decide)
      (by decide) (by decide)⟩

/-- C2: for every valid input with `s ≠ t`, the value either engine's
`compute(s, t)` returns equals the net flow leaving the source in the
final flow matrix (`∑ v, f[s][v]`) and equals the net flow entering the
sink (`∑ v, f[v][t]`). -/
theorem C2_value_consistency (n : Nat) (es : List Edge) (s t : Nat)
    (hval : ValidInput n es) (hs : s < n) (ht : t < n) (hst : s ≠ t) :
    (∃ v stf, ffComputeFull (mkNet n es) s t = some (v, stf) ∧
      (∑ x ∈ Finset.range n, stf.f s x) = v ∧
      (∑ x ∈ Finset.range n, stf.f x t) = v) ∧
    (∃ v stf, ekComputeFull (mkNet n es) s t = some (v, stf) ∧
      (∑ x ∈ Finset.range n, stf.f s x) = v ∧
      (∑ x ∈ Finset.range n, stf.f x t) = v) := by
  constructor
  · obtain ⟨v, stf, hff, hc, hfe, hco, hes, het, hr⟩ :=
      ffComputeFull_props n es hval s t hs hst
    refine ⟨v, stf, hff, hes, ?_⟩
    have hsum : (∑ x ∈ Finset.range n, stf.f x t)
        = - ∑ x ∈ Finset.range n, stf.f t x := by
      rw [← Finset.sum_neg_distrib]
      refine Finset.sum_congr rfl fun x _ => ?_
      rw [hfe.1 x t]
    rw [hsum]
    have : exc n stf.f t = -v := het
    unfold exc at this
    rw [this]
    ring
  · obtain ⟨v, stf, hek, hc, hfe, hco, hes, het, hr⟩ :=
      ekComputeFull_props n es hval s t hs hst
    refine ⟨v, stf, hek, hes, ?_⟩
    have hsum : (∑ x ∈ Finset.range n, stf.f x t)
        = - ∑ x ∈ Finset.range n, stf.f t x := by
      rw [← Finset.sum_neg_distrib]
      refine Finset.sum_congr rfl fun x _ => ?_
      rw [hfe.1 x t]
    rw [hsum]
    have : exc n stf.f t = -v := het
    unfold exc at this
    rw [this]
    ring

/-- Witness for C2 on the single-edge network `s → t` of capacity 5. -/
theorem C2_value_consistency_witness :
    ValidInput 2 [(0, 1, 5)] ∧ (0 : Nat) < 2 ∧ (1 : Nat) < 2 ∧ 0 ≠ 1 ∧
    ((∃ v stf, ffComputeFull (mkNet 2 [(0, 1, 5)]) 0 1 = some (v, stf) ∧
        (∑ x ∈ Finset.range 2, stf.f 0 x) = v ∧
        (∑ x ∈ Finset.range 2, stf.f x 1) = v) ∧
      (∃ v stf, ekComputeFull (mkNet 2 [(0, 1, 5)]) 0 1 = some (v, stf) ∧
        (∑ x ∈ Finset.range 2, stf.f 0 x) = v ∧
        (∑ x ∈ Finset.range 2, stf.f x 1) = v)) :=
  ⟨by decide, by decide, by decide, by decide,
    C2_value_consistency 2 [(0, 1, 5)] 0 1 (by decide) (by decide) (by decide)
      (by decide)⟩

/-- C3: for every valid input with `s ≠ t`, at termination of either
engine's `compute(s, t)` the sink is unreachable from the source along
ordered pairs of strictly positive residual capacity
`cf(u, v) = c[u][v] - f[u][v]`. -/
theorem C3_no_augmenting_path_at_termination (n : Nat) (es : List Edge)
    (s t : Nat) (hval : ValidInput n es) (hs : s < n) (ht : t < n)
    (hst : s ≠ t) :
    (∃ v stf, ffComputeFull (mkNet n es) s t = some (v, stf) ∧
      ¬ Reach stf.c stf.f s t) ∧
    (∃ v stf, ekComputeFull (mkNet n es) s t = some (v, stf) ∧
      ¬ Reach stf.c stf.f s t) := by
  constructor
  · obtain ⟨v, stf, hff, _, _, _, _, _, hr⟩ :=
      ffComputeFull_props n es hval s t hs hst
    exact ⟨v, stf, hff, hr⟩
  · obtain ⟨v, stf, hek, _, _, _, _, _, hr⟩ :=
      ekComputeFull_props n es hval s t hs hst
    exact ⟨v, stf, hek, hr⟩

/-- Witness for C3 on the single-edge network `s → t` of capacity 5. -/
theorem C3_no_augmenting_path_at_termination_witness :
    ValidInput 2 [(0, 1, 5)] ∧ (0 : Nat) < 2 ∧ (1 : Nat) < 2 ∧ 0 ≠ 1 ∧
    ((∃ v stf, ffComputeFull (mkNet 2 [(0, 1, 5)]) 0 1 = some (v, stf) ∧
        ¬ Reach stf.c stf.f 0 1) ∧
      (∃ v stf, ekComputeFull (mkNet 2 [(0, 1, 5)]) 0 1 = some (v, stf) ∧
        ¬ Reach stf.c stf.f 0 1)) :=
  ⟨by decide, by decide, by decide, by decide,
    C3_no_augmenting_path_at_termination 2 [(0, 1, 5)] 0 1 (by decide)
      (by decide) (by decide) (by decide)⟩

/-- C6: for every valid input with `s ≠ t`, the search-and-augment loop of
both engines terminates after finitely many iterations: the fueled loops
return a result within the provisioned fuel (`none` models divergence and
is never produced on valid inputs). -/
theorem C6_loop_termination (n : Nat) (es : List Edge) (s t : Nat)
    (hval : ValidInput n es) (hs : s < n) (ht : t < n) (hst : s ≠ t) :
    (ffCompute (mkNet n es) s t).isSome ∧
    (ekCompute (mkNet n es) s t).isSome := by
  obtain ⟨v1, st1, hff, _⟩ := ffComputeFull_props n es hval s t hs hst
  obtain ⟨v2, st2, hek, _⟩ := ekComputeFull_props n es hval s t hs hst
  constructor
  · unfold ffCompute
    rw [hff]
    rfl
  · unfold ekCompute
    rw [hek]
    rfl

/-- Witness for C6 on the single-edge network `s → t` of capacity 5. -/
theorem C6_loop_termination_witness :
    ValidInput 2 [(0, 1, 5)] ∧ (0 : Nat) < 2 ∧ (1 : Nat) < 2 ∧ 0 ≠ 1 ∧
    ((ffCompute (mkNet 2 [(0, 1, 5)]) 0 1).isSome ∧
      (ekCompute (mkNet 2 [(0, 1, 5)]) 0 1).isSome) :=
  ⟨by decide, by decide, by decide, by decide,
    C6_loop_termination 2 [(0, 1, 5)] 0 1 (by decide) (by decide) (by decide)
      (by decide)⟩

theorem feasible_edge_bounds (n : Nat) (es : List Edge)
    (hval : ValidInput n es) (Gf : Nat → List Nat) (c f : Mat)
    (hc : c = (mkNet n es).c) (hfe : Feasible Gf c f) (u w : Nat) (cap : Int)
    (he : (u, w, cap) ∈ es) : 0 ≤ f u w ∧ f u w ≤ c u w := by
  have hc0 : c w u = 0 := by
    rw [hc]
    exact (mkNet_c_edge n es hval u w cap he).2
  refine ⟨?_, hfe.2.1 u w⟩
  have h1 : f w u ≤ 0 := by
    have := hfe.2.1 w u
    rw [hc0] at this
    exact this
  have h2 : f u w = - f w u := hfe.1 u w
  linarith

/-- C4: on every valid input, for every original edge `(u, v)` the bound
`0 ≤ f[u][v] ≤ c[u][v]` holds at every observation point of either
engine's `compute(s, t)` (the state after each complete
search-and-augment iteration, `ffRun`/`ekRun`), and also at every point
inside an augmentation: every prefix of the elementary assignment
sequence `updSeq` — exactly the `f[x][y] += cf_p; f[y][x] -= cf_p`
assignments both engines execute, in their order — applied to a feasible
state along an augmenting path keeps the bound. -/
theorem C4_capacity_bound (n : Nat) (es : List Edge) (s t : Nat)
    (hval : ValidInput n es) (hs : s < n) (ht : t < n) (hst : s ≠ t) :
    (∀ (k : Nat) (v : Int) (st' : FFSt),
      ffRun (mkNet n es).Gf n t k
        ⟨(mkNet n es).c, (mkNet n es).f, fun _ => false⟩ s 0
        = some (v, st') →
      ∀ u w cap, (u, w, cap) ∈ es →
        0 ≤ st'.f u w ∧ st'.f u w ≤ st'.c u w) ∧
    (∀ (k : Nat) (v : Int) (st' : EKSt),
      ekRun (mkNet n es).Gf n t k
        ⟨(mkNet n es).c, (mkNet n es).f, fun _ => false, fun _ => nil⟩ s 0
        = some (v, st') →
      ∀ u w cap, (u, w, cap) ∈ es →
        0 ≤ st'.f u w ∧ st'.f u w ≤ st'.c u w) ∧
    (∀ (f : Mat) (r : Int) (p : List Nat) (j : Nat),
      Feasible (mkNet n es).Gf (mkNet n es).c f →
      AugPathOK (mkNet n es).Gf (mkNet n es).c f s t r p →
      ∀ u w cap, (u, w, cap) ∈ es →
        0 ≤ applyUpds f ((updSeq r p).take j) u w ∧
        applyUpds f ((updSeq r p).take j) u w ≤ (mkNet n es).c u w) := by
  set net := mkNet n es with hnet
  have hGr : ∀ w x, x ∈ net.Gf w → x < n := fun w x hx =>
    (mkNet_Gf_range n es hval w x hx).1
  have hGsym : ∀ w x, x ∈ net.Gf w → w ∈ net.Gf x := fun w x hx =>
    (mkNet_Gf_symm n es w x).mp hx
  have hf0 : ∀ p q, net.f p q = 0 := fun p q => mkNet_f n es p q
  have hfeasFF : Feasible net.Gf
      (FFSt.mk net.c net.f fun _ => false).c
      (FFSt.mk net.c net.f fun _ => false).f := by
    refine ⟨fun u v => ?_, fun u v => ?_, fun u v _ => hf0 u v⟩
    · show net.f u v = - net.f v u
      rw [hf0, hf0]; ring
    · show net.f u v ≤ net.c u v
      rw [hf0]; exact mkNet_c_nonneg n es hval u v
  have hfeasEK : Feasible net.Gf
      (EKSt.mk net.c net.f (fun _ => false) fun _ => nil).c
      (EKSt.mk net.c net.f (fun _ => false) fun _ => nil).f := hfeasFF
  have hcons0 : Conserved n s t net.f := by
    intro v _ _ _
    exact Finset.sum_eq_zero fun x _ => hf0 v x
  refine ⟨?_, ?_, ?_⟩
  · intro k v st' hrun u w cap he
    obtain ⟨ic, ifeas, _⟩ := ffRun_inv n s t net.Gf hGr hGsym hs hst k
      _ 0 v st' hrun hfeasFF hcons0
    exact feasible_edge_bounds n es hval net.Gf st'.c st'.f ic ifeas u w cap he
  · intro k v st' hrun u w cap he
    obtain ⟨ic, ifeas, _⟩ := ekRun_inv n s t net.Gf hGr hGsym hs hst k
      _ 0 v st' hrun hfeasEK hcons0
    exact feasible_edge_bounds n es hval net.Gf st'.c st'.f ic ifeas u w cap he
  · intro f r p j hfe hap u w cap he
    have hcf : ∀ a b, (a, b) ∈ pathEdges p → r ≤ cf net.c f a b :=
      fun a b hm => (chain'_rel_of_mem_pathEdges p hap.chain a b hm).2
    have hcnt : ∀ x y : Nat,
        ((updSeq r p).countP fun u' => decide (x = u'.1 ∧ y = u'.2.1)) ≤ 1 := by
      intro x y
      rw [updSeq_countP x y r p]
      by_cases hm : ((x, y) : Nat × Nat) ∈ pathEdges p
      · have h2 : ((y, x) : Nat × Nat) ∉ pathEdges p := fun hm2 =>
          pathEdges_no_reverse p hap.nodup x y hm hm2
        rw [List.count_eq_zero.mpr h2]
        have := pathEdges_count_le_one p hap.nodup x y
        omega
      · rw [List.count_eq_zero.mpr hm]
        have := pathEdges_count_le_one p hap.nodup y x
        omega
    have hupper : ∀ x y : Nat, augmentPath f r p x y ≤ net.c x y :=
      augmentPath_le_c net.c f r p hap.nodup hfe.2.1 (le_of_lt hap.pos) hcf
    have hskew' : ∀ x y : Nat,
        augmentPath f r p x y = - augmentPath f r p y x :=
      fun x y => augmentPath_skew f r p hfe.1 x y
    have hc0 : net.c w u = 0 := (mkNet_c_edge n es hval u w cap he).2
    have hbase := feasible_edge_bounds n es hval net.Gf net.c f rfl hfe u w
      cap he
    have haug : 0 ≤ augmentPath f r p u w ∧
        augmentPath f r p u w ≤ net.c u w := by
      refine ⟨?_, hupper u w⟩
      have h1 : augmentPath f r p w u ≤ 0 := by
        have := hupper w u
        rw [hc0] at this
        exact this
      have h2 := hskew' u w
      linarith
    rcases applyUpds_take_cases u w (updSeq r p) f (hcnt u w) j with hcase | hcase
    · rw [hcase]
      exact hbase
    · rw [hcase, applyUpds_updSeq f r p]
      exact haug

/-- Witness for C4 on the single-edge network `s → t` of capacity 5:
theorem applied at the concrete input; the third conjunct is exercised at
the trivial path. -/
theorem C4_capacity_bound_witness :
    ValidInput 2 [(0, 1, 5)] ∧ (0 : Nat) < 2 ∧ (1 : Nat) < 2 ∧ 0 ≠ 1 ∧
    (∀ (k : Nat) (v : Int) (st' : FFSt),
      ffRun (mkNet 2 [(0, 1, 5)]).Gf 2 1 k
        ⟨(mkNet 2 [(0, 1, 5)]).c, (mkNet 2 [(0, 1, 5)]).f, fun _ => false⟩ 0 0
        = some (v, st') →
      ∀ u w cap, (u, w, cap) ∈ [((0 : Nat), (1 : Nat), (5 : Int))] →
        0 ≤ st'.f u w ∧ st'.f u w ≤ st'.c u w) :=
  ⟨by decide, by decide, by decide, by decide,
    (C4_capacity_bound 2 [(0, 1, 5)] 0 1 (by decide) (by decide) (by decide)
      (by decide)).1⟩

/-- C5: on every valid input with `s ≠ t`, at every observation point of
either engine (the state after each complete search-and-augment
iteration, including the terminal one) every vertex other than source
and sink satisfies flow conservation: the sum of its inflow equals the
sum of its outflow under the flow matrix. -/
theorem C5_conservation (n : Nat) (es : List Edge) (s t : Nat)
    (hval : ValidInput n es) (hs : s < n) (ht : t < n) (hst : s ≠ t) :
    (∀ (k : Nat) (v : Int) (st' : FFSt),
      ffRun (mkNet n es).Gf n t k
        ⟨(mkNet n es).c, (mkNet n es).f, fun _ => false⟩ s 0
        = some (v, st') →
      ∀ x, x < n → x ≠ s → x ≠ t →
        (∑ y ∈ Finset.range n, st'.f y x)
          = ∑ y ∈ Finset.range n, st'.f x y) ∧
    (∀ (k : Nat) (v : Int) (st' : EKSt),
      ekRun (mkNet n es).Gf n t k
        ⟨(mkNet n es).c, (mkNet n es).f, fun _ => false, fun _ => nil⟩ s 0
        = some (v, st') →
      ∀ x, x < n → x ≠ s → x ≠ t →
        (∑ y ∈ Finset.range n, st'.f y x)
          = ∑ y ∈ Finset.range n, st'.f x y) := by
  set net := mkNet n es with hnet
  have hGr : ∀ w x, x ∈ net.Gf w → x < n := fun w x hx =>
    (mkNet_Gf_range n es hval w x hx).1
  have hGsym : ∀ w x, x ∈ net.Gf w → w ∈ net.Gf x := fun w x hx =>
    (mkNet_Gf_symm n es w x).mp hx
  have hf0 : ∀ p q, net.f p q = 0 := fun p q => mkNet_f n es p q
  have hfeasFF : Feasible net.Gf
      (FFSt.mk net.c net.f fun _ => false).c
      (FFSt.mk net.c net.f fun _ => false).f := by
    refine ⟨fun u v => ?_, fun u v => ?_, fun u v _ => hf0 u v⟩
    · show net.f u v = - net.f v u
      rw [hf0, hf0]; ring
    · show net.f u v ≤ net.c u v
      rw [hf0]; exact mkNet_c_nonneg n es hval u v
  have hfeasEK : Feasible net.Gf
      (EKSt.mk net.c net.f (fun _ => false) fun _ => nil).c
      (EKSt.mk net.c net.f (fun _ => false) fun _ => nil).f := hfeasFF
  have hcons0 : Conserved n s t net.f := by
    intro v _ _ _
    exact Finset.sum_eq_zero fun x _ => hf0 v x
  constructor
  · intro k v st' hrun x hxn hxs hxt
    obtain ⟨_, ifeas, icons⟩ := ffRun_inv n s t net.Gf hGr hGsym hs hst k
      _ 0 v st' hrun hfeasFF hcons0
    have h0 : exc n st'.f x = 0 := icons x hxn hxs hxt
    unfold exc at h0
    have hneg : (∑ y ∈ Finset.range n, st'.f y x)
        = - ∑ y ∈ Finset.range n, st'.f x y := by
      rw [← Finset.sum_neg_distrib]
      refine Finset.sum_congr rfl fun y _ => ?_
      rw [ifeas.1 y x]
    rw [hneg, h0]
    simp [h0]
  · intro k v st' hrun x hxn hxs hxt
    obtain ⟨_, ifeas, icons⟩ := ekRun_inv n s t net.Gf hGr hGsym hs hst k
      _ 0 v st' hrun hfeasEK hcons0
    have h0 : exc n st'.f x = 0 := icons x hxn hxs hxt
    unfold exc at h0
    have hneg : (∑ y ∈ Finset.range n, st'.f y x)
        = - ∑ y ∈ Finset.range n, st'.f x y := by
      rw [← Finset.sum_neg_distrib]
      refine Finset.sum_congr rfl fun y _ => ?_
      rw [ifeas.1 y x]
    rw [hneg, h0]
    simp [h0]

/-- Witness for C5 on the two-path network of scenario B. -/
theorem C5_conservation_witness :
    ValidInput 4 [(0, 1, 3), (1, 3, 3), (0, 2, 2), (2, 3, 2)] ∧
    (0 : Nat) < 4 ∧ (3 : Nat) < 4 ∧ 0 ≠ 3 ∧
    (∀ (k : Nat) (v : Int) (st' : FFSt),
      ffRun (mkNet 4 [(0, 1, 3), (1, 3, 3), (0, 2, 2), (2, 3, 2)]).Gf 4 3 k
        ⟨(mkNet 4 [(0, 1, 3), (1, 3, 3), (0, 2, 2), (2, 3, 2)]).c,
         (mkNet 4 [(0, 1, 3), (1, 3, 3), (0, 2, 2), (2, 3, 2)]).f,
         fun _ => false⟩ 0 0 = some (v, st') →
      ∀ x, x < 4 → x ≠ 0 → x ≠ 3 →
        (∑ y ∈ Finset.range 4, st'.f y x)
          = ∑ y ∈ Finset.range 4, st'.f x y) :=
  ⟨by decide, by decide, by decide, by decide,
    (C5_conservation 4 [(0, 1, 3), (1, 3, 3), (0, 2, 2), (2, 3, 2)] 0 3
      (by decide) (by decide) (by decide) (by decide)).1⟩

/-- C7 (amended): when source equals sink the search always "succeeds"
(`dfs` returns `inf > 0`, `bfs` marks the sink immediately), so the
`while` loop of `compute(s, s)` never exits: the call diverges instead
of returning 0.  Stated as: the loop body relation produces no final
state at any fuel, hence `compute(s, s)` is `none` for every network. -/
theorem C7_source_eq_sink_diverges :
    (∀ (Gf : Nat → List Nat) (n s : Nat) (fuel : Nat) (st : FFSt)
        (flow : Int), ffLoop Gf n s fuel st s flow = none) ∧
    (∀ (Gf : Nat → List Nat) (n s : Nat) (fuel : Nat) (st : EKSt)
        (flow : Int), ekLoop Gf n s fuel st s flow = none) ∧
    (∀ (net : Net) (s : Nat),
      ffComputeFull net s s = none ∧ ekComputeFull net s s = none) := by
  refine ⟨fun Gf n s fuel st flow => ffLoop_self Gf n s fuel st flow,
    fun Gf n s fuel st flow => ekLoop_self Gf n s fuel st flow, ?_⟩
  intro net s
  exact ⟨ffLoop_self net.Gf net.n s (loopFuel net) _ 0,
    ekLoop_self net.Gf net.n s (loopFuel net) _ 0⟩

/-- Counterexample to C7 as stated: on the valid one-edge network,
`compute(0, 0)` does not return the flow value 0 — both engines diverge
(the fueled loop yields `none`, and by `C7_source_eq_sink_diverges` no
fuel changes that). -/
theorem C7_counterexample :
    ffComputeFull (mkNet 2 [(0, 1, 1)]) 0 0 = none ∧
    ekComputeFull (mkNet 2 [(0, 1, 1)]) 0 0 = none :=
  ⟨rfl, rfl⟩

/-- C10: an unsuccessful search mutates no flow state: when the DFS of
`ford_fulkerson::dfs(s, t)` returns a non-positive augment (i.e. `dfs`
returns false) the matrices `c` and `f` are exactly as before the call,
and `edmonds_karp::bfs(s, t)` never modifies `c` or `f` in any call. -/
theorem C10_failed_search_frame :
    (∀ (Gf : Nat → List Nat) (t fuel : Nat) (st : FFSt) (s : Nat)
        (st' : FFSt) (r : Int),
      ffDfs Gf t fuel st s = some (st', r) → ¬ 0 < r →
      st'.c = st.c ∧ st'.f = st.f) ∧
    (∀ (Gf : Nat → List Nat) (n : Nat) (st : EKSt) (s t : Nat)
        (st2 : EKSt) (found : Bool),
      ekBfs Gf n st s t = some (st2, found) →
      st2.c = st.c ∧ st2.f = st.f) := by
  constructor
  · intro Gf t fuel st s st' r h hr
    unfold ffDfs at h
    obtain ⟨hc, _, _, _, hf, _⟩ := dfs_visit_post Gf t fuel _ s inf st' r h
    exact ⟨hc, hf (not_lt.mp hr)⟩
  · intro Gf n st s t st2 found h
    exact ekBfs_frame Gf n st s t st2 found h

/-- Witness for C10: a failing DFS on the empty two-vertex network, and
a BFS call on the same network; in both cases `c` and `f` survive. -/
theorem C10_failed_search_frame_witness :
    ((markFF (FFSt.mk (mkNet 2 []).c (mkNet 2 []).f fun _ => false) 0).c
        = (FFSt.mk (mkNet 2 []).c (mkNet 2 []).f fun _ => false).c ∧
      (markFF (FFSt.mk (mkNet 2 []).c (mkNet 2 []).f fun _ => false) 0).f
        = (FFSt.mk (mkNet 2 []).c (mkNet 2 []).f fun _ => false).f) ∧
    ((EKSt.mk (mkNet 2 []).c (mkNet 2 []).f
        (fun x => if x = 0 then true else false)
        fun x => if x = 0 then nil else nil).c
        = (EKSt.mk (mkNet 2 []).c (mkNet 2 []).f (fun _ => false)
            fun _ => nil).c ∧
      (EKSt.mk (mkNet 2 []).c (mkNet 2 []).f
        (fun x => if x = 0 then true else false)
        fun x => if x = 0 then nil else nil).f
        = (EKSt.mk (mkNet 2 []).c (mkNet 2 []).f (fun _ => false)
            fun _ => nil).f) :=
  ⟨C10_failed_search_frame.1 (mkNet 2 []).Gf 1 3
      (FFSt.mk (mkNet 2 []).c (mkNet 2 []).f fun _ => false) 0
      (markFF (FFSt.mk (mkNet 2 []).c (mkNet 2 []).f fun _ => false) 0) 0
      rfl (by decide),
    C10_failed_search_frame.2 (mkNet 2 []).Gf 2
      (EKSt.mk (mkNet 2 []).c (mkNet 2 []).f (fun _ => false) fun _ => nil)
      0 1
      (EKSt.mk (mkNet 2 []).c (mkNet 2 []).f
        (fun x => if x = 0 then true else false)
        fun x => if x = 0 then nil else nil)
      false rfl⟩

/-- C8 (amended): `add_edge(u, v, cap)` performs no validation at all.
It unconditionally writes `c[u][v] = cap` (any `cap`, negative included),
`c[v][u] = 0`, zeroes both flow entries, and appends to both adjacency
lists; a self-loop ends with `c[u][u] = 0` (the second write clobbers the
first) and `u` twice in its own list; a later opposite edge `(v, u)`
silently zeroes the earlier `c[u][v]`.  Every entry off the two written
cells is untouched. -/
theorem C8_add_edge_no_validation (net : Net) (u v : Nat) (cap : Int) :
    (add_edge net u v cap).n = net.n ∧
    (add_edge net u v cap).c v u = 0 ∧
    (add_edge net u v cap).f u v = 0 ∧
    (add_edge net u v cap).f v u = 0 ∧
    (u ≠ v → (add_edge net u v cap).c u v = cap) ∧
    (u = v → (add_edge net u v cap).c u v = 0) ∧
    (u ≠ v → (add_edge net u v cap).Gf u = net.Gf u ++ [v] ∧
      (add_edge net u v cap).Gf v = net.Gf v ++ [u]) ∧
    (u = v → (add_edge net u v cap).Gf u = net.Gf u ++ [v] ++ [u]) ∧
    (∀ x y, (x ≠ u ∨ y ≠ v) → (x ≠ v ∨ y ≠ u) →
      (add_edge net u v cap).c x y = net.c x y) := by
  refine ⟨rfl, setM_same _ v u 0, ?_, setM_same _ v u 0, ?_, ?_, ?_, ?_, ?_⟩
  · by_cases h : u = v
    · subst h
      exact setM_same (setM net.f u u 0) u u 0
    · show setM (setM net.f u v 0) v u 0 u v = 0
      rw [setM_other _ v u u v 0 fun hc => h hc.1]
      exact setM_same net.f u v 0
  · intro h
    show setM (setM net.c u v cap) v u 0 u v = cap
    rw [setM_other _ v u u v 0 fun hc => h hc.1]
    exact setM_same net.c u v cap
  · intro h
    subst h
    exact setM_same (setM net.c u u cap) u u 0
  · intro h
    constructor
    · show pushAdj (pushAdj net.Gf u v) v u u = net.Gf u ++ [v]
      simp [pushAdj, h, Ne.symm h]
    · show pushAdj (pushAdj net.Gf u v) v u v = net.Gf v ++ [u]
      simp [pushAdj, Ne.symm h]
  · intro h
    subst h
    show pushAdj (pushAdj net.Gf u u) u u u = net.Gf u ++ [u] ++ [u]
    simp [pushAdj]
  · intro x y h1 h2
    show setM (setM net.c u v cap) v u 0 x y = net.c x y
    rw [setM_other _ v u x y 0 fun hc => by
        rcases h2 with h2 | h2
        exacts [h2 hc.1, h2 hc.2],
      setM_other _ u v x y cap fun hc => by
        rcases h1 with h1 | h1
        exacts [h1 hc.1, h1 hc.2]]

/-- Counterexample to C8 as stated: none of the invalid `add_edge` calls
is rejected.  A self-loop is silently stored with capacity clobbered to 0
and two adjacency entries; a negative capacity is stored as given; adding
the opposite edge `(1, 0)` after `(0, 1)` silently zeroes the earlier
capacity.  In each case the engine reaches a state without any error. -/
theorem C8_counterexample :
    (add_edge (initNet 2) 0 0 5).c 0 0 = 0 ∧
    (add_edge (initNet 2) 0 0 5).Gf 0 = [0, 0] ∧
    (add_edge (initNet 2) 0 1 (-3)).c 0 1 = -3 ∧
    (add_edge (add_edge (initNet 2) 0 1 3) 1 0 4).c 0 1 = 0 ∧
    (add_edge (add_edge (initNet 2) 0 1 3) 1 0 4).c 1 0 = 4 :=
  ⟨rfl, rfl, rfl, rfl, rfl⟩

/-- Witness for C8: the amended theorem applied to a well-formed call. -/
theorem C8_add_edge_no_validation_witness :
    (0 : Nat) ≠ 1 ∧ (add_edge (initNet 2) 0 1 5).c 0 1 = 5 :=
  ⟨by decide,
    (C8_add_edge_no_validation (initNet 2) 0 1 5).2.2.2.2.1 (by decide)⟩

/-- C9 (amended): `edmonds_karp::bfs(s, t)` has no early-exit check: it
always runs the queue dry, and on a network with a non-negative residual
its visited set is exactly the set of residual-reachable vertices; the
returned flag is `visited[t]`. -/
theorem C9_bfs_exhausts_frontier (Gf : Nat → List Nat) (n : Nat)
    (st : EKSt) (s t : Nat) (hG : ∀ w x, x ∈ Gf w → x < n) (hs : s < n)
    (hnn : ∀ x y, 0 ≤ cf st.c st.f x y)
    (hsupp : ∀ u v, v ∉ Gf u → st.f u v = 0)
    (hcadj : ∀ u v, st.c u v ≠ 0 → v ∈ Gf u) :
    ∃ st2, ekBfs Gf n st s t = some (st2, st2.visited t) ∧
      ∀ x, st2.visited x = true ↔ Reach st.c st.f s x := by
  obtain ⟨pr, hpr⟩ := Option.isSome_iff_exists.mp
    (ekBfs_isSome Gf n st s t hG hs)
  obtain ⟨st2, found⟩ := pr
  obtain ⟨_, _, bfound, bvs, bcl, brch, _, _⟩ :=
    ekBfs_spec Gf n s t st st2 found hpr hnn
  refine ⟨st2, by rw [hpr, bfound], fun x => ⟨brch x, ?_⟩⟩
  intro hreach
  induction hreach with
  | refl => exact bvs
  | @tail b c' hsb hbc ih =>
    have hadj : c' ∈ Gf b := by
      by_contra hnadj
      have hcz : st.c b c' = 0 := by
        by_contra hcnz
        exact hnadj (hcadj b c' hcnz)
      have hcf0 : cf st.c st.f b c' = 0 := by
        unfold cf
        rw [hsupp b c' hnadj, hcz]
        ring
      rw [hcf0] at hbc
      exact absurd hbc (lt_irrefl 0)
    exact bcl b ih c' hadj (ne_of_gt hbc)

/-- Counterexample to C9 as stated: on the network with edges
`0→1, 0→2, 2→3` and `bfs(0, 1)`, the sink 1 is marked while expanding 0,
yet the search keeps expanding and also discovers vertex 3 (two hops
past the sink, `pi[3] = 2`); the spec's early-terminating search
(`bfsEarlyLoop`) started from the same one-element frontier leaves 3
unvisited. -/
theorem C9_counterexample :
    (ekBfs (mkNet 4 [(0, 1, 1), (0, 2, 1), (2, 3, 1)]).Gf 4
        ⟨(mkNet 4 [(0, 1, 1), (0, 2, 1), (2, 3, 1)]).c,
          (mkNet 4 [(0, 1, 1), (0, 2, 1), (2, 3, 1)]).f,
          fun _ => false, fun _ => nil⟩ 0 1).map
        (fun p => (p.2, p.1.visited 3, p.1.pi 3))
      = some (true, true, 2) ∧
    (bfsEarlyLoop (mkNet 4 [(0, 1, 1), (0, 2, 1), (2, 3, 1)]).Gf 1 8
        ⟨(mkNet 4 [(0, 1, 1), (0, 2, 1), (2, 3, 1)]).c,
          (mkNet 4 [(0, 1, 1), (0, 2, 1), (2, 3, 1)]).f,
          fun x => if x = 0 then true else false,
          fun x => if x = 0 then nil else nil⟩ [0]).map
        (fun st => st.visited 3)
      = some false :=
  ⟨rfl, rfl⟩

/-- Witness for C9: the amended theorem applied to the empty two-vertex
network. -/
theorem C9_bfs_exhausts_frontier_witness :
    ∃ st2, ekBfs (mkNet 2 []).Gf 2
        (EKSt.mk (mkNet 2 []).c (mkNet 2 []).f (fun _ => false)
          fun _ => nil) 0 1
        = some (st2, st2.visited 1) ∧
      ∀ x, st2.visited x = true ↔
        Reach (mkNet 2 []).c (mkNet 2 []).f 0 x :=
  C9_bfs_exhausts_frontier (mkNet 2 []).Gf 2
    (EKSt.mk (mkNet 2 []).c (mkNet 2 []).f (fun _ => false) fun _ => nil)
    0 1
    (fun w x hx => (mkNet_Gf_range 2 [] (by decide) w x hx).1)
    (by decide)
    (fun x y => by
      show 0 ≤ cf (mkNet 2 []).c (mkNet 2 []).f x y
      unfold cf
      rw [mkNet_f 2 [] x y]
      have := mkNet_c_nonneg 2 [] (by decide) x y
      linarith)
    (fun u v _ => mkNet_f 2 [] u v)
    (fun u v h => mkNet_c_adj 2 [] u v h)

end Graph
